import Mathlib

/-!
Verification development for the procedural tree generation core
(`tree_simple.cpp` / `tree_simple.h`) of the Grafika_Projekt repository.

The C++ code is shallowly embedded:
* `float` is modelled by `ℚ` (the code only adds, subtracts, multiplies,
  divides, compares, and clamps; float literals such as `0.15f` are taken
  at their decimal face value);
* transcendental float functions (`sinf`, `cosf`, `glm::normalize`) and
  the constant `M_PI` are modelled by an uninterpreted parameter record
  `MathOps` — every theorem below holds for an arbitrary interpretation;
* the unseeded `std::mt19937` draws are modelled by an oracle `Env`
  supplying the value of each successive `uniform_real_distribution` /
  `uniform_int_distribution` draw; an execution of the C++ program
  corresponds to some oracle whose values lie in the distribution ranges;
* the mutually recursive position resolver, whose C++ recursion
  terminates only because parent indices decrease, is embedded with an
  explicit fuel argument; with the default fuel budget it is proved
  stable on every parent-monotone arena.
-/

namespace TreeSimple

/-- `glm::vec3` over the rational model of `float`. -/
structure Vec3 where
  x : ℚ
  y : ℚ
  z : ℚ
deriving DecidableEq, Repr

namespace Vec3

def add (a b : Vec3) : Vec3 := ⟨a.x + b.x, a.y + b.y, a.z + b.z⟩

def sub (a b : Vec3) : Vec3 := ⟨a.x - b.x, a.y - b.y, a.z - b.z⟩

def smul (c : ℚ) (a : Vec3) : Vec3 := ⟨c * a.x, c * a.y, c * a.z⟩

/-- Componentwise product, as in `glm::vec3 * glm::vec3`. -/
def cmul (a b : Vec3) : Vec3 := ⟨a.x * b.x, a.y * b.y, a.z * b.z⟩

def neg (a : Vec3) : Vec3 := ⟨-a.x, -a.y, -a.z⟩

def dot (a b : Vec3) : ℚ := a.x * b.x + a.y * b.y + a.z * b.z

def cross (a b : Vec3) : Vec3 :=
  ⟨a.y * b.z - a.z * b.y, a.z * b.x - a.x * b.z, a.x * b.y - a.y * b.x⟩

def zero : Vec3 := ⟨0, 0, 0⟩

instance : Add Vec3 := ⟨Vec3.add⟩

instance : Sub Vec3 := ⟨Vec3.sub⟩

instance : Inhabited Vec3 := ⟨Vec3.zero⟩

end Vec3

/-- Uninterpreted model of the transcendental float operations used by the
source (`sinf`, `cosf`, `glm::normalize`, `glm::length`, and the macro
`M_PI`). Theorems are proved for every interpretation. -/
structure MathOps where
  piQ : ℚ
  sinQ : ℚ → ℚ
  cosQ : ℚ → ℚ
  normalize3 : Vec3 → Vec3
  length3 : Vec3 → ℚ

/-- Oracle for the random draws: `uniformReal lo hi n` (resp.
`uniformInt lo hi n`) is the value of the `n`-th draw when that draw is a
`uniform_real_distribution(lo,hi)` (resp. `uniform_int_distribution`).
Draws are numbered by a counter threaded through generation. -/
structure Env where
  uniformReal : ℚ → ℚ → Nat → ℚ
  uniformInt : Nat → Nat → Nat → Nat

/-- The oracle honours the distribution ranges (always true of the real
`std::uniform_int_distribution`). -/
def EnvOk (env : Env) : Prop :=
  ∀ lo hi n, lo ≤ hi → lo ≤ env.uniformInt lo hi n ∧ env.uniformInt lo hi n ≤ hi

/-- `struct TreeBranch` from `tree_simple.h`. -/
structure TreeBranch where
  start : Vec3
  endP : Vec3            -- field `end` (a Lean keyword)
  radius : ℚ
  generation : Nat
  growth_progress : ℚ
  children : List Nat
  parent_index : Int
deriving DecidableEq, Repr

instance : Inhabited TreeBranch :=
  ⟨⟨Vec3.zero, Vec3.zero, 0, 0, 0, [], 0⟩⟩

/-- `struct TreeLeaf` from `tree_simple.h`. -/
structure TreeLeaf where
  position : Vec3
  normal : Vec3
  size : ℚ
  growth_progress : ℚ
  parent_branch_index : Int
  spawn_delay : ℚ
deriving DecidableEq, Repr

instance : Inhabited TreeLeaf := ⟨⟨Vec3.zero, Vec3.zero, 0, 0, 0, 0⟩⟩

/-- The configuration members set by the `Tree` constructor and never
mutated afterwards. -/
structure TreeCfg where
  max_growth_time : ℚ
  max_generations : Nat
  branch_angle_variance : ℚ
  length_reduction_factor : ℚ
  radius_reduction_factor : ℚ
deriving DecidableEq, Repr

/-- Values assigned in `Tree::Tree()`. -/
def defaultCfg : TreeCfg :=
  { max_growth_time := 10
    max_generations := 6
    branch_angle_variance := 45
    length_reduction_factor := 7/10
    radius_reduction_factor := 7/10 }

/-- The full mutable state of a `Tree` object. -/
structure Tree where
  cfg : TreeCfg
  branches : List TreeBranch
  leaves : List TreeLeaf
  branch_vertices : List ℚ
  leaf_vertices : List ℚ
  current_growth_time : ℚ
  ctr : Nat              -- position in the random-draw oracle (model only)
deriving DecidableEq, Repr

/-- A `Tree` right after the constructor ran. -/
def Tree.init : Tree :=
  { cfg := defaultCfg, branches := [], leaves := [], branch_vertices := []
    leaf_vertices := [], current_growth_time := 0, ctr := 0 }

/-- `branches[i]` after the `0 <= i < size` bounds check. -/
def nthB (bs : List TreeBranch) (i : Nat) : TreeBranch := bs.getD i default

/- ### Hierarchical position resolver
`Tree::calculateAbsoluteBranchStart` / `Tree::calculateAbsoluteBranchEnd`.
The C++ recursion terminates only on arenas whose parent chains descend;
fuel makes the embedding total, and the default budget `2·length + 2` is
proved fuel-stable on parent-monotone arenas below. -/

mutual

def absStartF (bs : List TreeBranch) : Nat → Int → Vec3
  | 0, _ => Vec3.zero
  | n + 1, i =>
    if i < 0 ∨ (bs.length : Int) ≤ i then Vec3.zero
    else if (nthB bs i.toNat).parent_index = -1 then (nthB bs i.toNat).start
    else absEndF bs n (nthB bs i.toNat).parent_index

def absEndF (bs : List TreeBranch) : Nat → Int → Vec3
  | 0, _ => Vec3.zero
  | n + 1, i =>
    if i < 0 ∨ (bs.length : Int) ≤ i then Vec3.zero
    else absStartF bs n i +
      Vec3.smul (nthB bs i.toNat).growth_progress
        ((nthB bs i.toNat).endP - (nthB bs i.toNat).start)

end

def calculateAbsoluteBranchStart (bs : List TreeBranch) (i : Int) : Vec3 :=
  absStartF bs (2 * bs.length + 2) i

def calculateAbsoluteBranchEnd (bs : List TreeBranch) (i : Int) : Vec3 :=
  absEndF bs (2 * bs.length + 2) i

/- ### Growth scheduler: `Tree::updateGrowth` -/

/-- The per-branch body of the branch loop in `Tree::updateGrowth`
(lines 293-329).  `T` is `max_growth_time`, `t` the already-advanced
`current_growth_time`, `acc` the (partially updated) branch array. -/
def updBranch (T t : ℚ) (acc : List TreeBranch) (b : TreeBranch) : TreeBranch :=
  if (b.generation : ℚ) * (T * (15/100)) < t then
    if b.generation = 0 then
      { b with
          growth_progress :=
            min 1 ((t - (b.generation : ℚ) * (T * (15/100))) / (T * (4/10))) }
    else
      if 0 ≤ b.parent_index ∧ b.parent_index < (acc.length : Int) then
        if 6/10 < (nthB acc b.parent_index.toNat).growth_progress then
          { b with
              growth_progress :=
                min 1 ((t - max ((b.generation : ℚ) * (T * (15/100)))
                  ((6/10) * (T * (4/10)) +
                    ((nthB acc b.parent_index.toNat).generation : ℚ) * (T * (15/100)))) /
                  (T * (4/10))) }
        else b
      else b
  else b

/-- The in-place branch loop: element `i` is overwritten using the array
as updated so far (exactly the `for (auto& branch : branches)` loop). -/
def branchPassAux (T t : ℚ) (acc : List TreeBranch) (i : Nat) : Nat → List TreeBranch
  | 0 => acc
  | fuel + 1 =>
    branchPassAux T t (acc.set i (updBranch T t acc (nthB acc i))) (i + 1) fuel

def branchPass (T t : ℚ) (bs : List TreeBranch) : List TreeBranch :=
  branchPassAux T t bs 0 bs.length

/-- The per-leaf body of the leaf loop in `Tree::updateGrowth`
(lines 333-361); `bs` is the branch array after the branch loop. -/
def updLeaf (T t : ℚ) (bs : List TreeBranch) (l : TreeLeaf) : TreeLeaf :=
  if 0 ≤ l.parent_branch_index ∧ l.parent_branch_index < (bs.length : Int) then
    if 2/5 < (nthB bs l.parent_branch_index.toNat).growth_progress then
      if ((nthB bs l.parent_branch_index.toNat).generation : ℚ) * (T * (15/100)) +
          T * (1/10) + l.spawn_delay < t then
        { l with
            growth_progress :=
              min 1 ((t - (((nthB bs l.parent_branch_index.toNat).generation : ℚ) *
                (T * (15/100)) + T * (1/10) + l.spawn_delay)) / (T * (1/10))) }
      else l
    else l
  else l

def leafPass (T t : ℚ) (bs : List TreeBranch) (ls : List TreeLeaf) : List TreeLeaf :=
  ls.map (updLeaf T t bs)

/- ### Mesh tessellator: `Tree::addBranchSegment`, `Tree::addLeafQuad`,
`Tree::updateBranchMesh`, `Tree::updateLeafMesh`.  The C++ appends to the
member vectors; here each helper returns the floats it appends. -/

/-- One loop iteration (segment face) of `Tree::addBranchSegment`:
two triangles, six vertices, 9 floats each. -/
def segFace (ops : MathOps) (start endP : Vec3) (start_radius end_radius : ℚ)
    (right up : Vec3) (i : Nat) : List ℚ :=
  let angle1 := (i : ℚ) / 8 * 2 * ops.piQ
  let angle2 := ((i : ℚ) + 1) / 8 * 2 * ops.piQ
  let u1 := (i : ℚ) / 8
  let u2 := ((i : ℚ) + 1) / 8
  let p1 := start + Vec3.smul (ops.cosQ angle1 * start_radius) right
      + Vec3.smul (ops.sinQ angle1 * start_radius) up
  let p2 := start + Vec3.smul (ops.cosQ angle2 * start_radius) right
      + Vec3.smul (ops.sinQ angle2 * start_radius) up
  let p3 := endP + Vec3.smul (ops.cosQ angle1 * end_radius) right
      + Vec3.smul (ops.sinQ angle1 * end_radius) up
  let p4 := endP + Vec3.smul (ops.cosQ angle2 * end_radius) right
      + Vec3.smul (ops.sinQ angle2 * end_radius) up
  let n1 := ops.normalize3 (Vec3.cmul (p1 - start) ⟨1, 0, 1⟩)
  let n2 := ops.normalize3 (Vec3.cmul (p2 - start) ⟨1, 0, 1⟩)
  [p1.x, p1.y, p1.z, 1, u1, 0, n1.x, n1.y, n1.z,
   p2.x, p2.y, p2.z, 1, u2, 0, n2.x, n2.y, n2.z,
   p3.x, p3.y, p3.z, 1, u1, 1, n1.x, n1.y, n1.z,
   p2.x, p2.y, p2.z, 1, u2, 0, n2.x, n2.y, n2.z,
   p4.x, p4.y, p4.z, 1, u2, 1, n2.x, n2.y, n2.z,
   p3.x, p3.y, p3.z, 1, u1, 1, n1.x, n1.y, n1.z]

/-- `Tree::addBranchSegment`: the tapered 8-sided cylinder for one branch. -/
def addBranchSegment (ops : MathOps) (start endP : Vec3)
    (start_radius end_radius : ℚ) : List ℚ :=
  let direction := ops.normalize3 (endP - start)
  let up0 : Vec3 := ⟨0, 1, 0⟩
  let up1 := if 9/10 < |Vec3.dot direction up0| then (⟨1, 0, 0⟩ : Vec3) else up0
  let right := ops.normalize3 (Vec3.cross direction up1)
  let up := ops.normalize3 (Vec3.cross right direction)
  (List.range 8).foldl
    (fun acc i => acc ++ segFace ops start endP start_radius end_radius right up i) []

/-- Lines 663-665 of `Tree::addLeafQuad`: the minimum-size adjustment
`size = min_size + (size - min_size) * growth` with `min_size = 0.05`. -/
def addLeafQuadSize (size growth : ℚ) : ℚ :=
  let min_size : ℚ := 5/100
  min_size + (size - min_size) * growth

/-- One 9-float vertex of a leaf quad. -/
def leafVertex (v : Vec3) (tu tv : ℚ) (n : Vec3) : List ℚ :=
  [v.x, v.y, v.z, 1, tu, tv, n.x, n.y, n.z]

/-- `Tree::addLeafQuad`: a double-sided quad, 12 vertices. -/
def addLeafQuad (ops : MathOps) (position normal : Vec3) (size growth : ℚ) : List ℚ :=
  let size := addLeafQuadSize size growth
  let right0 := ops.normalize3 (Vec3.cross normal ⟨0, 1, 0⟩)
  let right1 := if ops.length3 right0 < 1/100 then (⟨1, 0, 0⟩ : Vec3) else right0
  let upU := ops.normalize3 (Vec3.cross right1 normal)
  let right := Vec3.smul (size * (1/2)) right1
  let up := Vec3.smul (size * (1/2)) upU
  let v1 := position - right - up
  let v2 := position + right - up
  let v3 := position + right + up
  let v4 := position - right + up
  let back_normal := Vec3.neg normal
  leafVertex v1 0 0 normal ++ leafVertex v2 1 0 normal ++ leafVertex v3 1 1 normal ++
  leafVertex v1 0 0 normal ++ leafVertex v3 1 1 normal ++ leafVertex v4 0 1 normal ++
  leafVertex v1 0 0 back_normal ++ leafVertex v3 1 1 back_normal ++ leafVertex v2 1 0 back_normal ++
  leafVertex v1 0 0 back_normal ++ leafVertex v4 0 1 back_normal ++ leafVertex v3 1 1 back_normal

/-- `Tree::updateBranchMesh` (the result assigned to `branch_vertices`):
walk the branch array with its index, emitting a cylinder for every branch
with `growth_progress > 0`. -/
def buildBranchVertsAux (ops : MathOps) (full : List TreeBranch) :
    Nat → List TreeBranch → List ℚ
  | _, [] => []
  | i, b :: rest =>
    (if 0 < b.growth_progress then
      addBranchSegment ops (calculateAbsoluteBranchStart full (i : Int))
        (calculateAbsoluteBranchEnd full (i : Int)) b.radius (b.radius * (7/10))
    else []) ++ buildBranchVertsAux ops full (i + 1) rest

def buildBranchVerts (ops : MathOps) (bs : List TreeBranch) : List ℚ :=
  buildBranchVertsAux ops bs 0 bs

/-- `Tree::updateLeafMesh` (the result assigned to `leaf_vertices`). -/
def buildLeafVertsAux (ops : MathOps) (bs : List TreeBranch) :
    List TreeLeaf → List ℚ
  | [] => []
  | l :: rest =>
    (if 0 < l.growth_progress ∧ 0 ≤ l.parent_branch_index ∧
        l.parent_branch_index < (bs.length : Int) then
      let parent_branch := nthB bs l.parent_branch_index.toNat
      let original_leaf_offset := l.position - parent_branch.endP
      let parent_absolute_end := calculateAbsoluteBranchEnd bs l.parent_branch_index
      let pos := parent_absolute_end + original_leaf_offset
      let dynamic_size := l.size * l.growth_progress
      addLeafQuad ops pos l.normal dynamic_size l.growth_progress
    else []) ++ buildLeafVertsAux ops bs rest

def buildLeafVerts (ops : MathOps) (bs : List TreeBranch) (ls : List TreeLeaf) : List ℚ :=
  buildLeafVertsAux ops bs ls

/-- `Tree::updateGrowth(delta_time)`: advance the clock, run the branch
loop, the leaf loop, then rebuild both meshes. -/
def Tree.updateGrowth (ops : MathOps) (dt : ℚ) (s : Tree) : Tree :=
  let t := s.current_growth_time + dt
  let bs := branchPass s.cfg.max_growth_time t s.branches
  let ls := leafPass s.cfg.max_growth_time t bs s.leaves
  { s with current_growth_time := t, branches := bs, leaves := ls
           branch_vertices := buildBranchVerts ops bs
           leaf_vertices := buildLeafVerts ops bs ls }

def Tree.getBranchVertexCount (s : Tree) : Nat := s.branch_vertices.length / 9

def Tree.getLeafVertexCount (s : Tree) : Nat := s.leaf_vertices.length / 9

def Tree.getBranchCount (s : Tree) : Nat := s.branches.length

def Tree.getLeafCount (s : Tree) : Nat := s.leaves.length

def Tree.getGrowthProgress (s : Tree) : ℚ :=
  s.current_growth_time / s.cfg.max_growth_time

/- ### Randomized generator: `Tree::generate` / `Tree::generateBranch` -/

/-- The state mutated by `Tree::generateBranch` (the vertex buffers are
untouched by generation). -/
structure GenSt where
  branches : List TreeBranch
  leaves : List TreeLeaf
  ctr : Nat
deriving DecidableEq, Repr

/-- `branches[parent_index].children.push_back(branch_index)`. -/
def pushChildAt (bs : List TreeBranch) (p ci : Nat) : List TreeBranch :=
  bs.set p { nthB bs p with children := (nthB bs p).children ++ [ci] }

/-- One leaf of the loop body of `Tree::generateBranch` (lines 195-219),
drawing eight random values — position x/y/z, direction x/y/z, size,
spawn delay, in source order — starting at oracle position `c`. -/
def mkLeaf (ops : MathOps) (env : Env) (branch_index : Nat) (bend : Vec3)
    (c : Nat) : TreeLeaf :=
  { position := bend + ⟨env.uniformReal (-1) 1 c * (4/10),
      env.uniformReal (-1) 1 (c + 1) * (3/10),
      env.uniformReal (-1) 1 (c + 2) * (4/10)⟩
    normal := ops.normalize3 ⟨env.uniformReal (-1) 1 (c + 3) * (1/2),
      8/10 + |env.uniformReal (-1) 1 (c + 4)| * (2/10),
      env.uniformReal (-1) 1 (c + 5) * (1/2)⟩
    size := env.uniformReal (28/100) (45/100) (c + 6)
    growth_progress := 0
    parent_branch_index := (branch_index : Int)
    spawn_delay := env.uniformReal 0 4 (c + 7) }

def genLeavesLoop (ops : MathOps) (env : Env) (branch_index : Nat) (bend : Vec3)
    (st : GenSt) : Nat → GenSt
  | 0 => st
  | k + 1 =>
    genLeavesLoop ops env branch_index bend
      { st with leaves := st.leaves ++ [mkLeaf ops env branch_index bend st.ctr]
                ctr := st.ctr + 8 } k

/-- The branch record built at the top of `Tree::generateBranch`
(lines 115-121): `end = start + direction * length`, zero progress, no
children yet. -/
def mkBranch (p : Int) (start direction : Vec3) (length radius : ℚ)
    (generation : Nat) : TreeBranch :=
  { start := start
    endP := start + Vec3.smul length direction
    radius := radius
    generation := generation
    growth_progress := 0
    children := []
    parent_index := p }

/-- `branches.push_back(branch)`. -/
def appendBranch (st : GenSt) (b : TreeBranch) : GenSt :=
  { st with branches := st.branches ++ [b] }

/-- Lines 129-131: register the new branch with its parent when it has
one. -/
def registerChild (st : GenSt) (p : Int) (ci : Nat) : GenSt :=
  if 0 ≤ p then { st with branches := pushChildAt st.branches p.toNat ci } else st

/-- The per-child direction computation of the child loop (lines 151-166),
drawing its two random values (angle variation, elevation) at oracle
positions `c` and `c+1`. -/
def childDirection (ops : MathOps) (env : Env) (cfg : TreeCfg) (c : Nat)
    (i n : Nat) : Vec3 :=
  ops.normalize3
    ⟨ops.sinQ ((i : ℚ) / (n : ℚ) * 2 * ops.piQ +
        env.uniformReal (-1) 1 c * cfg.branch_angle_variance * ops.piQ / 180) *
      ops.cosQ ((30 + env.uniformReal (-1) 1 (c + 1) * 20) * ops.piQ / 180),
     ops.sinQ ((30 + env.uniformReal (-1) 1 (c + 1) * 20) * ops.piQ / 180),
     ops.cosQ ((i : ℚ) / (n : ℚ) * 2 * ops.piQ +
        env.uniformReal (-1) 1 c * cfg.branch_angle_variance * ops.piQ / 180) *
      ops.cosQ ((30 + env.uniformReal (-1) 1 (c + 1) * 20) * ops.piQ / 180)⟩

/-- Step 4 of `Tree::generateBranch` (lines 182-224): attach 6-14 leaves
to the branch tip when `generation >= 2`. -/
def gbFinish (ops : MathOps) (env : Env) (st : GenSt) (bi : Nat) (bend : Vec3)
    (generation : Nat) : GenSt :=
  if 2 ≤ generation then
    genLeavesLoop ops env bi bend { st with ctr := st.ctr + 1 }
      (env.uniformInt 6 14 st.ctr)
  else st

mutual

/-- `Tree::generateBranch`: create the branch, register it with its
parent, recursively generate 2-4 children while below the maximum
generation, then attach leaves when `generation >= 2`. -/
def generateBranch (ops : MathOps) (env : Env) (cfg : TreeCfg) (st : GenSt)
    (parent_index : Int) (start direction : Vec3) (length radius : ℚ)
    (generation : Nat) : GenSt :=
  gbFinish ops env
    (gbChildren ops env cfg
      (registerChild
        (appendBranch st (mkBranch parent_index start direction length radius generation))
        parent_index st.branches.length)
      st.branches.length (start + Vec3.smul length direction) length radius generation)
    st.branches.length (start + Vec3.smul length direction) generation
termination_by (cfg.max_generations + 1 - generation, 2, 0)

/-- Step 3 of `Tree::generateBranch` (lines 135-177): when below the
maximum generation, draw the child count from `[2,4]` and run the child
loop. -/
def gbChildren (ops : MathOps) (env : Env) (cfg : TreeCfg) (st : GenSt)
    (bi : Nat) (bend : Vec3) (length radius : ℚ) (generation : Nat) : GenSt :=
  if h : generation < cfg.max_generations then
    generateChildren ops env cfg { st with ctr := st.ctr + 1 } bi bend length radius
      (generation + 1) 0 (env.uniformInt 2 4 st.ctr)
  else st
termination_by (cfg.max_generations + 1 - generation, 1, 0)

/-- The child loop of `Tree::generateBranch` (lines 145-176): child `i`
of `n`, two random draws per child, then the recursive call at
`generation + 1` with the reduced length and radius. -/
def generateChildren (ops : MathOps) (env : Env) (cfg : TreeCfg) (st : GenSt)
    (parentIdx : Nat) (childStart : Vec3) (length radius : ℚ) (childGen : Nat)
    (i n : Nat) : GenSt :=
  if h : i < n then
    generateChildren ops env cfg
      (generateBranch ops env cfg { st with ctr := st.ctr + 2 } (parentIdx : Int)
        childStart (childDirection ops env cfg st.ctr i n)
        (length * cfg.length_reduction_factor) (radius * cfg.radius_reduction_factor)
        childGen)
      parentIdx childStart length radius childGen (i + 1) n
  else st
termination_by (cfg.max_generations + 1 - childGen, 3, n - i)

end

/-- `Tree::generate()`: clear everything, reset the clock, and grow a
fresh structure from the trunk call
`generateBranch(-1, (0,0,0), (0,1,0), 3.0, 0.2, 0)`. -/
def Tree.generate (ops : MathOps) (env : Env) (s : Tree) : Tree :=
  let st := generateBranch ops env s.cfg { branches := [], leaves := [], ctr := 0 }
    (-1) ⟨0, 0, 0⟩ ⟨0, 1, 0⟩ 3 (2/10) 0
  { s with branches := st.branches, leaves := st.leaves
           branch_vertices := [], leaf_vertices := []
           current_growth_time := 0, ctr := st.ctr }

/- ### List access helpers -/

theorem getD_set_ne {α : Type} (l : List α) (i j : Nat) (a d : α) (h : i ≠ j) :
    (l.set i a).getD j d = l.getD j d := by
  induction l generalizing i j with
  | nil => simp
  | cons x xs ih =>
    cases i with
    | zero => cases j with
      | zero => exact absurd rfl h
      | succ j' => simp
    | succ i' => cases j with
      | zero => simp
      | succ j' => simpa using ih i' j' (by omega)

theorem getD_set_self {α : Type} (l : List α) (i : Nat) (a d : α)
    (h : i < l.length) : (l.set i a).getD i d = a := by
  induction l generalizing i with
  | nil => simp at h
  | cons x xs ih =>
    cases i with
    | zero => simp
    | succ i' => simpa using ih i' (by simpa using h)

theorem set_getD_id {α : Type} (l : List α) (i : Nat) (d : α) :
    l.set i (l.getD i d) = l := by
  induction l generalizing i with
  | nil => simp
  | cons x xs ih =>
    cases i with
    | zero => simp
    | succ i' => simpa using ih i'

theorem getD_append_lt {α : Type} (l l' : List α) (j : Nat) (d : α)
    (h : j < l.length) : (l ++ l').getD j d = l.getD j d := by
  induction l generalizing j with
  | nil => simp at h
  | cons x xs ih =>
    cases j with
    | zero => simp
    | succ j' => simpa using ih j' (by simpa using h)

theorem getD_append_len {α : Type} (l : List α) (a d : α) :
    (l ++ [a]).getD l.length d = a := by
  induction l with
  | nil => simp
  | cons x xs ih => simp [ih]

theorem getD_mem {α : Type} (l : List α) (j : Nat) (d : α) (h : j < l.length) :
    l.getD j d ∈ l := by
  induction l generalizing j with
  | nil => simp at h
  | cons x xs ih =>
    cases j with
    | zero => simp
    | succ j' =>
      exact List.mem_cons_of_mem x (by simpa using ih j' (by simpa using h))

theorem getD_of_le {α : Type} (l : List α) (j : Nat) (d : α)
    (h : l.length ≤ j) : l.getD j d = d := by
  induction l generalizing j with
  | nil => simp
  | cons x xs ih =>
    cases j with
    | zero => simp at h
    | succ j' => simpa using ih j' (by simpa using h)

/- ### The position resolver is fuel-stable on parent-monotone arenas -/

/-- Every branch's parent index is strictly below its own index — the
shape `Tree::generateBranch` always produces, and the reason both the
recursive position resolver and the single forward update pass work. -/
def ParentMonotone (bs : List TreeBranch) : Prop :=
  ∀ i, i < bs.length → (nthB bs i).parent_index < (i : Int)

instance (bs : List TreeBranch) : Decidable (ParentMonotone bs) := by
  unfold ParentMonotone; infer_instance

theorem absStartF_oob (bs : List TreeBranch) (n : Nat) (i : Int)
    (h : i < 0 ∨ (bs.length : Int) ≤ i) : absStartF bs n i = Vec3.zero := by
  cases n <;> simp [absStartF, h]

theorem absEndF_oob (bs : List TreeBranch) (n : Nat) (i : Int)
    (h : i < 0 ∨ (bs.length : Int) ≤ i) : absEndF bs n i = Vec3.zero := by
  cases n <;> simp [absEndF, h]

theorem absStartF_succ (bs : List TreeBranch) (n : Nat) (i : Int)
    (h0 : 0 ≤ i) (hlen : i < (bs.length : Int)) :
    absStartF bs (n + 1) i =
      if (nthB bs i.toNat).parent_index = -1 then (nthB bs i.toNat).start
      else absEndF bs n (nthB bs i.toNat).parent_index := by
  rw [absStartF, if_neg (by omega)]

theorem absEndF_succ (bs : List TreeBranch) (n : Nat) (i : Int)
    (h0 : 0 ≤ i) (hlen : i < (bs.length : Int)) :
    absEndF bs (n + 1) i =
      absStartF bs n i +
        Vec3.smul (nthB bs i.toNat).growth_progress
          ((nthB bs i.toNat).endP - (nthB bs i.toNat).start) := by
  rw [absEndF, if_neg (by omega)]

/-- On a parent-monotone arena the resolver's value does not depend on the
fuel once the fuel exceeds twice the index: the parent-chain recursion of
`calculateAbsoluteBranchStart`/`End` strictly decreases the index, hence
terminates. -/
theorem absF_stable (bs : List TreeBranch) (hm : ParentMonotone bs) :
    ∀ (k : Nat) (i : Int), i.toNat = k →
      ∀ n m : Nat, 2 * k + 2 ≤ n → 2 * k + 2 ≤ m →
        absStartF bs n i = absStartF bs m i ∧ absEndF bs n i = absEndF bs m i := by
  intro k
  induction k using Nat.strong_induction_on with
  | _ k IH =>
    intro i hik n m hn hm2
    obtain ⟨n', rfl⟩ : ∃ n', n = n' + 1 := ⟨n - 1, by omega⟩
    obtain ⟨m', rfl⟩ : ∃ m', m = m' + 1 := ⟨m - 1, by omega⟩
    by_cases hoob : i < 0 ∨ (bs.length : Int) ≤ i
    · rw [absStartF_oob _ _ _ hoob, absStartF_oob _ _ _ hoob,
        absEndF_oob _ _ _ hoob, absEndF_oob _ _ _ hoob]
      exact ⟨rfl, rfl⟩
    · push_neg at hoob
      obtain ⟨hi0, hilen⟩ := hoob
      have hin : i.toNat < bs.length := by omega
      have hp : (nthB bs i.toNat).parent_index < i := by
        have := hm i.toNat hin
        omega
      have key : ∀ n₁ m₁ : Nat, 2 * k ≤ n₁ → 2 * k ≤ m₁ →
          absStartF bs (n₁ + 1) i = absStartF bs (m₁ + 1) i := by
        intro n₁ m₁ hn₁ hm₁
        rw [absStartF_succ bs n₁ i hi0 hilen, absStartF_succ bs m₁ i hi0 hilen]
        by_cases hroot : (nthB bs i.toNat).parent_index = -1
        · rw [if_pos hroot, if_pos hroot]
        · rw [if_neg hroot, if_neg hroot]
          by_cases hneg : (nthB bs i.toNat).parent_index < 0
          · rw [absEndF_oob _ _ _ (Or.inl hneg), absEndF_oob _ _ _ (Or.inl hneg)]
          · push_neg at hneg
            have hlt : (nthB bs i.toNat).parent_index.toNat < k := by omega
            exact (IH _ hlt _ rfl n₁ m₁ (by omega) (by omega)).2
      refine ⟨key n' m' (by omega) (by omega), ?_⟩
      rw [absEndF_succ bs n' i hi0 hilen, absEndF_succ bs m' i hi0 hilen]
      obtain ⟨n'', rfl⟩ : ∃ n'', n' = n'' + 1 := ⟨n' - 1, by omega⟩
      obtain ⟨m'', rfl⟩ : ∃ m'', m' = m'' + 1 := ⟨m' - 1, by omega⟩
      rw [key n'' m'' (by omega) (by omega)]

theorem calcStart_oob (bs : List TreeBranch) (i : Int)
    (h : i < 0 ∨ (bs.length : Int) ≤ i) :
    calculateAbsoluteBranchStart bs i = Vec3.zero :=
  absStartF_oob bs _ i h

theorem calcEnd_oob (bs : List TreeBranch) (i : Int)
    (h : i < 0 ∨ (bs.length : Int) ≤ i) :
    calculateAbsoluteBranchEnd bs i = Vec3.zero :=
  absEndF_oob bs _ i h

theorem calcStart_root (bs : List TreeBranch) (i : Int) (h0 : 0 ≤ i)
    (hlen : i < (bs.length : Int)) (hroot : (nthB bs i.toNat).parent_index = -1) :
    calculateAbsoluteBranchStart bs i = (nthB bs i.toNat).start := by
  unfold calculateAbsoluteBranchStart
  rw [show 2 * bs.length + 2 = (2 * bs.length + 1) + 1 from rfl,
    absStartF_succ bs _ i h0 hlen, if_pos hroot]

theorem calcStart_child (bs : List TreeBranch) (hm : ParentMonotone bs) (i : Int)
    (h0 : 0 ≤ i) (hlen : i < (bs.length : Int))
    (hnr : (nthB bs i.toNat).parent_index ≠ -1) :
    calculateAbsoluteBranchStart bs i =
      calculateAbsoluteBranchEnd bs (nthB bs i.toNat).parent_index := by
  unfold calculateAbsoluteBranchStart calculateAbsoluteBranchEnd
  rw [show 2 * bs.length + 2 = (2 * bs.length + 1) + 1 from rfl,
    absStartF_succ bs _ i h0 hlen, if_neg hnr]
  by_cases hneg : (nthB bs i.toNat).parent_index < 0
  · rw [absEndF_oob _ _ _ (Or.inl hneg), absEndF_oob _ _ _ (Or.inl hneg)]
  · push_neg at hneg
    have hp : (nthB bs i.toNat).parent_index < i := by
      have := hm i.toNat (by omega)
      omega
    exact (absF_stable bs hm (nthB bs i.toNat).parent_index.toNat _ rfl
      (2 * bs.length + 1) (2 * bs.length + 2) (by omega) (by omega)).2

theorem calcEnd_eq (bs : List TreeBranch) (hm : ParentMonotone bs) (i : Int)
    (h0 : 0 ≤ i) (hlen : i < (bs.length : Int)) :
    calculateAbsoluteBranchEnd bs i =
      calculateAbsoluteBranchStart bs i +
        Vec3.smul (nthB bs i.toNat).growth_progress
          ((nthB bs i.toNat).endP - (nthB bs i.toNat).start) := by
  unfold calculateAbsoluteBranchStart calculateAbsoluteBranchEnd
  rw [show 2 * bs.length + 2 = (2 * bs.length + 1) + 1 from rfl,
    absEndF_succ bs _ i h0 hlen]
  rw [(absF_stable bs hm i.toNat i rfl (2 * bs.length + 1) (2 * bs.length + 1 + 1)
    (by omega) (by omega)).1]

/- ### Structure of the in-place branch pass -/

theorem set_of_le {α : Type} (l : List α) (i : Nat) (a : α) (h : l.length ≤ i) :
    l.set i a = l := by
  induction l generalizing i with
  | nil => simp
  | cons x xs ih =>
    cases i with
    | zero => simp at h
    | succ i' => simp [ih i' (by simpa using h)]

theorem getD_map {α β : Type} (f : α → β) (l : List α) (j : Nat) (d : α) (d' : β)
    (h : j < l.length) : (l.map f).getD j d' = f (l.getD j d) := by
  induction l generalizing j with
  | nil => simp at h
  | cons x xs ih =>
    cases j with
    | zero => simp
    | succ j' => simpa using ih j' (by simpa using h)

theorem branchPassAux_length (T t : ℚ) :
    ∀ (f : Nat) (acc : List TreeBranch) (i : Nat),
      (branchPassAux T t acc i f).length = acc.length := by
  intro f
  induction f with
  | zero => intro acc i; rfl
  | succ f ih => intro acc i; rw [branchPassAux, ih]; simp

theorem branchPassAux_getD_lt (T t : ℚ) :
    ∀ (f : Nat) (acc : List TreeBranch) (i j : Nat), j < i →
      (branchPassAux T t acc i f).getD j default = acc.getD j default := by
  intro f
  induction f with
  | zero => intro acc i j _; rfl
  | succ f ih =>
    intro acc i j hj
    rw [branchPassAux, ih _ _ _ (by omega), getD_set_ne _ _ _ _ _ (by omega)]

theorem branchPassAux_getD_ge (T t : ℚ) :
    ∀ (f : Nat) (acc : List TreeBranch) (i j : Nat), i + f ≤ j →
      (branchPassAux T t acc i f).getD j default = acc.getD j default := by
  intro f
  induction f with
  | zero => intro acc i j _; rfl
  | succ f ih =>
    intro acc i j hj
    rw [branchPassAux, ih _ _ _ (by omega), getD_set_ne _ _ _ _ _ (by omega)]

theorem branchPassAux_split (T t : ℚ) :
    ∀ (f g : Nat) (acc : List TreeBranch) (i : Nat),
      branchPassAux T t acc i (f + g) =
        branchPassAux T t (branchPassAux T t acc i f) (i + f) g := by
  intro f
  induction f with
  | zero => intro g acc i; rw [Nat.zero_add, Nat.add_zero]; rfl
  | succ f ih =>
    intro g acc i
    have harith : f + 1 + g = (f + g) + 1 := by omega
    rw [harith, branchPassAux, branchPassAux, ih]
    have : i + 1 + f = i + (f + 1) := by omega
    rw [this]

/-- The first `i` steps of the branch loop. -/
def passPrefix (T t : ℚ) (bs : List TreeBranch) (i : Nat) : List TreeBranch :=
  branchPassAux T t bs 0 i

theorem passPrefix_length (T t : ℚ) (bs : List TreeBranch) (i : Nat) :
    (passPrefix T t bs i).length = bs.length :=
  branchPassAux_length T t i bs 0

theorem passPrefix_getD_ge (T t : ℚ) (bs : List TreeBranch) (i j : Nat)
    (h : i ≤ j) : (passPrefix T t bs i).getD j default = bs.getD j default :=
  branchPassAux_getD_ge T t i bs 0 j (by omega)

/-- When step `i` of the loop runs, every earlier position — in
particular any parent with a smaller index — already holds its final,
this-pass-updated value. -/
theorem branchPass_getD_lt (T t : ℚ) (bs : List TreeBranch) (i j : Nat)
    (hij : j < i) (hi : i ≤ bs.length) :
    (branchPass T t bs).getD j default = (passPrefix T t bs i).getD j default := by
  unfold branchPass
  have h : bs.length = i + (bs.length - i) := by omega
  rw [h, branchPassAux_split]
  exact branchPassAux_getD_lt T t _ _ _ _ (by omega)

/-- The value the pass stores at position `i`: the update function applied
to the old entry, reading the partially updated array. -/
theorem branchPass_getD (T t : ℚ) (bs : List TreeBranch) (i : Nat)
    (hi : i < bs.length) :
    (branchPass T t bs).getD i default =
      updBranch T t (passPrefix T t bs i) (nthB bs i) := by
  unfold branchPass
  have h : bs.length = i + ((bs.length - i - 1) + 1) := by omega
  rw [h, branchPassAux_split]
  show (branchPassAux T t (branchPassAux T t bs 0 i) (0 + i) ((bs.length - i - 1) + 1)).getD
    i default = _
  rw [branchPassAux]
  rw [branchPassAux_getD_lt T t _ _ _ _ (by omega)]
  have hlen : i < (branchPassAux T t bs 0 i).length := by
    rw [branchPassAux_length]; omega
  have hacc : nthB (branchPassAux T t bs 0 i) (0 + i) = nthB bs i := by
    unfold nthB
    simpa using branchPassAux_getD_ge T t i bs 0 i (by omega)
  rw [show (0 : Nat) + i = i from by omega] at hacc ⊢
  rw [getD_set_self _ _ _ _ hlen, hacc]
  rfl

/- ### Growth-fraction invariant: bounds, monotonicity, gating -/

/-- `generation_delay` as computed in `updateGrowth`. -/
def gdC (T : ℚ) : ℚ := T * (15/100)

/-- `growth_duration` as computed in `updateGrowth`. -/
def durC (T : ℚ) : ℚ := T * (4/10)

/-- `leaf_growth_duration` as computed in `updateGrowth`. -/
def ldurC (T : ℚ) : ℚ := T * (1/10)

/-- `start_time` of a branch (`generation * generation_delay`). -/
def schedStart (T : ℚ) (b : TreeBranch) : ℚ := (b.generation : ℚ) * gdC T

/-- The (static) time at which `updateGrowth` measures a branch's growth:
the trunk uses its scheduled start, a gated child uses
`max(start_time, parent_60_percent_time)`. -/
def actualStart (T : ℚ) (bs : List TreeBranch) (b : TreeBranch) : ℚ :=
  if b.generation = 0 then schedStart T b
  else if 0 ≤ b.parent_index ∧ b.parent_index < (bs.length : Int) then
    max (schedStart T b)
      ((6/10) * durC T + ((nthB bs b.parent_index.toNat).generation : ℚ) * gdC T)
  else schedStart T b

theorem actualStart_ge_sched (T : ℚ) (bs : List TreeBranch) (b : TreeBranch) :
    schedStart T b ≤ actualStart T bs b := by
  unfold actualStart
  split_ifs <;> simp [le_max_left]

/-- Two branch arrays with the same length and generations (the update
pass never changes either). -/
def SameShape (bs bs' : List TreeBranch) : Prop :=
  bs.length = bs'.length ∧ ∀ j, (nthB bs j).generation = (nthB bs' j).generation

theorem sameShape_refl (bs : List TreeBranch) : SameShape bs bs :=
  ⟨rfl, fun _ => rfl⟩

theorem sameShape_trans {a b c : List TreeBranch} (h1 : SameShape a b)
    (h2 : SameShape b c) : SameShape a c :=
  ⟨h1.1.trans h2.1, fun j => (h1.2 j).trans (h2.2 j)⟩

theorem actualStart_congr (T : ℚ) (bs bs' : List TreeBranch)
    (h : SameShape bs bs') (b : TreeBranch) :
    actualStart T bs b = actualStart T bs' b := by
  unfold actualStart
  rw [h.1, h.2 b.parent_index.toNat]

/-- The invariant the branch loop maintains: every growth fraction is in
`[0,1]` and, when positive, is accounted for by the elapsed time past the
branch's (static) actual start. -/
def BranchInv (T t : ℚ) (bs : List TreeBranch) : Prop :=
  ∀ i, i < bs.length →
    0 ≤ (nthB bs i).growth_progress ∧ (nthB bs i).growth_progress ≤ 1 ∧
    ((nthB bs i).growth_progress = 0 ∨
      (nthB bs i).growth_progress * durC T ≤ t - actualStart T bs (nthB bs i))

theorem BranchInv_mono_time (T t t' : ℚ) (bs : List TreeBranch)
    (h : BranchInv T t bs) (ht : t ≤ t') : BranchInv T t' bs := by
  intro i hi
  obtain ⟨a1, a2, a3⟩ := h i hi
  refine ⟨a1, a2, ?_⟩
  rcases a3 with a3 | a3
  · exact Or.inl a3
  · exact Or.inr (by linarith)

/-- What one application of the branch update body does: it only rewrites
`growth_progress`, and the new value stays in `[0,1]`, never decreases,
and re-establishes the invariant. -/
theorem updBranch_step (T t : ℚ) (hT : 0 < T) (acc : List TreeBranch)
    (hacc : BranchInv T t acc) (b : TreeBranch)
    (hb0 : 0 ≤ b.growth_progress) (hb1 : b.growth_progress ≤ 1)
    (hbJ : b.growth_progress = 0 ∨
      b.growth_progress * durC T ≤ t - actualStart T acc b) :
    ∃ p', updBranch T t acc b = { b with growth_progress := p' } ∧
      0 ≤ p' ∧ p' ≤ 1 ∧ b.growth_progress ≤ p' ∧
      (p' = 0 ∨ p' * durC T ≤ t - actualStart T acc b) := by
  have hdur' : 0 < T * (4/10) := mul_pos hT (by norm_num)
  have hne : T * (4/10) ≠ 0 := ne_of_gt hdur'
  unfold durC at hbJ ⊢
  unfold updBranch
  split_ifs with h1 h2 h3 h4
  · -- trunk, past its start time: assigned min 1 ((t - start)/duration)
    have hact : actualStart T acc b = (b.generation : ℚ) * (T * (15/100)) := by
      unfold actualStart schedStart gdC
      rw [if_pos h2]
    refine ⟨_, rfl, ?_, min_le_left _ _, ?_, ?_⟩
    · exact le_min (by norm_num) (le_of_lt (div_pos (by linarith) hdur'))
    · rcases hbJ with h | h
      · rw [h]; exact le_min (by norm_num) (le_of_lt (div_pos (by linarith) hdur'))
      · rw [hact] at h
        exact le_min hb1 ((le_div_iff₀ hdur').mpr (by linarith [h]))
    · right
      rw [hact]
      have hmr := min_le_right (1 : ℚ)
        ((t - (b.generation : ℚ) * (T * (15/100))) / (T * (4/10)))
      calc min 1 ((t - (b.generation : ℚ) * (T * (15/100))) / (T * (4/10))) * (T * (4/10))
          ≤ (t - (b.generation : ℚ) * (T * (15/100))) / (T * (4/10)) * (T * (4/10)) :=
            mul_le_mul_of_nonneg_right hmr (le_of_lt hdur')
        _ = t - (b.generation : ℚ) * (T * (15/100)) := div_mul_cancel₀ _ hne
  · -- gated child, parent past 60%: assigned from the actual start time
    have hact : actualStart T acc b =
        max ((b.generation : ℚ) * (T * (15/100)))
          ((6/10) * (T * (4/10)) +
            ((nthB acc b.parent_index.toNat).generation : ℚ) * (T * (15/100))) := by
      unfold actualStart schedStart gdC durC
      rw [if_neg h2, if_pos h3]
    have hplen : b.parent_index.toNat < acc.length := by omega
    obtain ⟨hp0, hp1, hpJ⟩ := hacc b.parent_index.toNat hplen
    have hppos : (0 : ℚ) <
        (nthB acc b.parent_index.toNat).growth_progress := by linarith
    rcases hpJ with h | h
    · exact absurd h (by linarith)
    unfold durC at h
    have hsched := actualStart_ge_sched T acc (nthB acc b.parent_index.toNat)
    have hp60 : (6/10) * (T * (4/10)) +
        ((nthB acc b.parent_index.toNat).generation : ℚ) * (T * (15/100)) < t := by
      have h60 : (6/10) * (T * (4/10)) <
          (nthB acc b.parent_index.toNat).growth_progress * (T * (4/10)) :=
        mul_lt_mul_of_pos_right h4 hdur'
      unfold schedStart gdC at hsched
      linarith
    have hmax : max ((b.generation : ℚ) * (T * (15/100)))
        ((6/10) * (T * (4/10)) +
          ((nthB acc b.parent_index.toNat).generation : ℚ) * (T * (15/100))) < t :=
      max_lt h1 hp60
    refine ⟨_, rfl, ?_, min_le_left _ _, ?_, ?_⟩
    · exact le_min (by norm_num) (le_of_lt (div_pos (by linarith) hdur'))
    · rcases hbJ with h' | h'
      · rw [h']
        exact le_min (by norm_num) (le_of_lt (div_pos (by linarith) hdur'))
      · rw [hact] at h'
        exact le_min hb1 ((le_div_iff₀ hdur').mpr (by linarith [h']))
    · right
      rw [hact]
      have hmr := min_le_right (1 : ℚ)
        ((t - max ((b.generation : ℚ) * (T * (15/100)))
          ((6/10) * (T * (4/10)) +
            ((nthB acc b.parent_index.toNat).generation : ℚ) * (T * (15/100)))) / (T * (4/10)))
      calc _ ≤ (t - max ((b.generation : ℚ) * (T * (15/100)))
            ((6/10) * (T * (4/10)) +
              ((nthB acc b.parent_index.toNat).generation : ℚ) * (T * (15/100)))) /
            (T * (4/10)) * (T * (4/10)) :=
            mul_le_mul_of_nonneg_right hmr (le_of_lt hdur')
        _ = _ := div_mul_cancel₀ _ hne
  · exact ⟨b.growth_progress, rfl, hb0, hb1, le_refl _, hbJ⟩
  · exact ⟨b.growth_progress, rfl, hb0, hb1, le_refl _, hbJ⟩
  · exact ⟨b.growth_progress, rfl, hb0, hb1, le_refl _, hbJ⟩

/-- `actualStart` only reads the static fields of its branch argument. -/
theorem actualStart_progress_irrel (T : ℚ) (bs : List TreeBranch)
    (b : TreeBranch) (p : ℚ) :
    actualStart T bs { b with growth_progress := p } = actualStart T bs b := rfl

/-- The branch loop preserves the invariant, never changes shape, and
never decreases any growth fraction. -/
theorem branchPassAux_inv (T t : ℚ) (hT : 0 < T) :
    ∀ (f : Nat) (acc : List TreeBranch) (i : Nat), BranchInv T t acc →
      BranchInv T t (branchPassAux T t acc i f) ∧
      SameShape acc (branchPassAux T t acc i f) ∧
      ∀ j, (nthB acc j).growth_progress ≤
        (nthB (branchPassAux T t acc i f) j).growth_progress := by
  intro f
  induction f with
  | zero => exact fun acc i h => ⟨h, sameShape_refl acc, fun j => le_refl _⟩
  | succ f ih =>
    intro acc i hacc
    rw [branchPassAux]
    by_cases hi : i < acc.length
    · obtain ⟨hi0, hi1, hiJ⟩ := hacc i hi
      obtain ⟨p', hupd, hp0, hp1, hmono, hJ⟩ :=
        updBranch_step T t hT acc hacc (nthB acc i) hi0 hi1 hiJ
      have hval : nthB (acc.set i (updBranch T t acc (nthB acc i))) i =
          { nthB acc i with growth_progress := p' } := by
        unfold nthB
        rw [getD_set_self _ _ _ _ hi]
        exact hupd
      have hoth : ∀ j, j ≠ i →
          nthB (acc.set i (updBranch T t acc (nthB acc i))) j = nthB acc j := by
        intro j hj
        unfold nthB
        exact getD_set_ne _ _ _ _ _ (fun h => hj h.symm)
      have hshape : SameShape acc (acc.set i (updBranch T t acc (nthB acc i))) := by
        refine ⟨(List.length_set acc i _).symm, fun j => ?_⟩
        by_cases hj : j = i
        · subst hj; rw [hval]
        · rw [hoth j hj]
      have hinv' : BranchInv T t (acc.set i (updBranch T t acc (nthB acc i))) := by
        intro j hj
        have hj' : j < acc.length := by
          rw [List.length_set] at hj; exact hj
        by_cases hje : j = i
        · subst hje
          rw [hval]
          refine ⟨hp0, hp1, ?_⟩
          rcases hJ with h | h
          · exact Or.inl h
          · right
            rw [actualStart_progress_irrel, ← actualStart_congr T acc _ hshape]
            exact h
        · rw [hoth j hje]
          obtain ⟨a1, a2, a3⟩ := hacc j hj'
          refine ⟨a1, a2, ?_⟩
          rcases a3 with h | h
          · exact Or.inl h
          · right
            rw [← actualStart_congr T acc _ hshape]
            exact h
      obtain ⟨r1, r2, r3⟩ := ih (acc.set i (updBranch T t acc (nthB acc i))) (i + 1) hinv'
      refine ⟨r1, sameShape_trans hshape r2, fun j => le_trans ?_ (r3 j)⟩
      by_cases hje : j = i
      · subst hje; rw [hval]; exact hmono
      · rw [hoth j hje]
    · rw [set_of_le acc i _ (by omega)]
      exact ih acc (i + 1) hacc

theorem branchPass_inv (T t : ℚ) (hT : 0 < T) (bs : List TreeBranch)
    (h : BranchInv T t bs) :
    BranchInv T t (branchPass T t bs) ∧ SameShape bs (branchPass T t bs) ∧
      ∀ j, (nthB bs j).growth_progress ≤
        (nthB (branchPass T t bs) j).growth_progress :=
  branchPassAux_inv T t hT bs.length bs 0 h

/-- The leaf's start time as computed in `updateGrowth`:
`parent.generation * generation_delay + leaf_start_offset + spawn_delay`. -/
def leafStartT (T : ℚ) (bs : List TreeBranch) (l : TreeLeaf) : ℚ :=
  ((nthB bs l.parent_branch_index.toNat).generation : ℚ) * (T * (15/100)) +
    T * (1/10) + l.spawn_delay

/-- The invariant the leaf loop maintains: fractions in `[0,1]`, and a
positive fraction certifies a valid parent whose fraction exceeds `0.4`
and enough elapsed time past the leaf's start. -/
def LeafInv (T t : ℚ) (bs : List TreeBranch) (ls : List TreeLeaf) : Prop :=
  ∀ l ∈ ls, 0 ≤ l.growth_progress ∧ l.growth_progress ≤ 1 ∧
    (l.growth_progress = 0 ∨
      (0 ≤ l.parent_branch_index ∧ l.parent_branch_index < (bs.length : Int) ∧
       2/5 < (nthB bs l.parent_branch_index.toNat).growth_progress ∧
       l.growth_progress * ldurC T ≤ t - leafStartT T bs l))

/-- The leaf invariant survives advancing the clock and replacing the
branch array by one of the same shape with pointwise larger fractions. -/
theorem LeafInv_transport (T t t' : ℚ) (bs bs' : List TreeBranch)
    (ls : List TreeLeaf) (h : LeafInv T t bs ls) (ht : t ≤ t')
    (hs : SameShape bs bs')
    (hmono : ∀ j, (nthB bs j).growth_progress ≤ (nthB bs' j).growth_progress) :
    LeafInv T t' bs' ls := by
  intro l hl
  obtain ⟨a1, a2, a3⟩ := h l hl
  refine ⟨a1, a2, ?_⟩
  rcases a3 with h0 | ⟨v1, v2, v3, v4⟩
  · exact Or.inl h0
  · right
    refine ⟨v1, by rw [← hs.1]; exact v2, lt_of_lt_of_le v3 (hmono _), ?_⟩
    have : leafStartT T bs' l = leafStartT T bs l := by
      unfold leafStartT
      rw [hs.2 l.parent_branch_index.toNat]
    rw [this]
    linarith

/-- What one application of the leaf update body does. -/
theorem updLeaf_step (T t : ℚ) (hT : 0 < T) (bs : List TreeBranch) (l : TreeLeaf)
    (hl0 : 0 ≤ l.growth_progress) (hl1 : l.growth_progress ≤ 1)
    (hlJ : l.growth_progress = 0 ∨
      (0 ≤ l.parent_branch_index ∧ l.parent_branch_index < (bs.length : Int) ∧
       2/5 < (nthB bs l.parent_branch_index.toNat).growth_progress ∧
       l.growth_progress * ldurC T ≤ t - leafStartT T bs l)) :
    ∃ p', updLeaf T t bs l = { l with growth_progress := p' } ∧
      0 ≤ p' ∧ p' ≤ 1 ∧ l.growth_progress ≤ p' ∧
      (p' = 0 ∨
        (0 ≤ l.parent_branch_index ∧ l.parent_branch_index < (bs.length : Int) ∧
         2/5 < (nthB bs l.parent_branch_index.toNat).growth_progress ∧
         p' * ldurC T ≤ t - leafStartT T bs l)) := by
  have hld : 0 < T * (1/10) := mul_pos hT (by norm_num)
  have hne : T * (1/10) ≠ 0 := ne_of_gt hld
  unfold ldurC at hlJ ⊢
  unfold updLeaf
  split_ifs with h1 h2 h3
  · -- assigned
    have hst : leafStartT T bs l =
        ((nthB bs l.parent_branch_index.toNat).generation : ℚ) * (T * (15/100)) +
          T * (1/10) + l.spawn_delay := rfl
    refine ⟨_, rfl, ?_, min_le_left _ _, ?_, ?_⟩
    · exact le_min (by norm_num) (le_of_lt (div_pos (by linarith) hld))
    · rcases hlJ with h | ⟨_, _, _, h⟩
      · rw [h]
        exact le_min (by norm_num) (le_of_lt (div_pos (by linarith) hld))
      · rw [hst] at h
        exact le_min hl1 ((le_div_iff₀ hld).mpr (by linarith [h]))
    · right
      refine ⟨h1.1, h1.2, h2, ?_⟩
      rw [hst]
      have hmr := min_le_right (1 : ℚ)
        ((t - (((nthB bs l.parent_branch_index.toNat).generation : ℚ) * (T * (15/100)) +
          T * (1/10) + l.spawn_delay)) / (T * (1/10)))
      calc _ ≤ (t - (((nthB bs l.parent_branch_index.toNat).generation : ℚ) *
            (T * (15/100)) + T * (1/10) + l.spawn_delay)) / (T * (1/10)) * (T * (1/10)) :=
            mul_le_mul_of_nonneg_right hmr (le_of_lt hld)
        _ = _ := div_mul_cancel₀ _ hne
  · exact ⟨l.growth_progress, rfl, hl0, hl1, le_refl _, hlJ⟩
  · exact ⟨l.growth_progress, rfl, hl0, hl1, le_refl _, hlJ⟩
  · exact ⟨l.growth_progress, rfl, hl0, hl1, le_refl _, hlJ⟩

theorem leafPass_inv (T t : ℚ) (hT : 0 < T) (bs : List TreeBranch)
    (ls : List TreeLeaf) (h : LeafInv T t bs ls) :
    LeafInv T t bs (leafPass T t bs ls) ∧
      ∀ j, j < ls.length → (ls.getD j default).growth_progress ≤
        ((leafPass T t bs ls).getD j default).growth_progress := by
  constructor
  · intro l' hl'
    obtain ⟨l, hl, rfl⟩ := List.mem_map.mp hl'
    obtain ⟨a1, a2, a3⟩ := h l hl
    obtain ⟨p', hupd, hp0, hp1, _, hJ⟩ := updLeaf_step T t hT bs l a1 a2 a3
    rw [hupd]
    exact ⟨hp0, hp1, hJ⟩
  · intro j hj
    unfold leafPass
    rw [getD_map (updLeaf T t bs) ls j default default hj]
    obtain ⟨a1, a2, a3⟩ := h (ls.getD j default) (getD_mem ls j default hj)
    obtain ⟨p', hupd, _, _, hmono, _⟩ := updLeaf_step T t hT bs _ a1 a2 a3
    rw [hupd]
    exact hmono

/- ### The whole-tree invariant and `updateGrowth` -/

theorem updateGrowth_cfg (ops : MathOps) (dt : ℚ) (s : Tree) :
    (Tree.updateGrowth ops dt s).cfg = s.cfg := rfl

theorem updateGrowth_time (ops : MathOps) (dt : ℚ) (s : Tree) :
    (Tree.updateGrowth ops dt s).current_growth_time =
      s.current_growth_time + dt := rfl

theorem updateGrowth_branches (ops : MathOps) (dt : ℚ) (s : Tree) :
    (Tree.updateGrowth ops dt s).branches =
      branchPass s.cfg.max_growth_time (s.current_growth_time + dt) s.branches := rfl

theorem updateGrowth_leaves (ops : MathOps) (dt : ℚ) (s : Tree) :
    (Tree.updateGrowth ops dt s).leaves =
      leafPass s.cfg.max_growth_time (s.current_growth_time + dt)
        (branchPass s.cfg.max_growth_time (s.current_growth_time + dt) s.branches)
        s.leaves := rfl

theorem updateGrowth_bv (ops : MathOps) (dt : ℚ) (s : Tree) :
    (Tree.updateGrowth ops dt s).branch_vertices =
      buildBranchVerts ops
        (branchPass s.cfg.max_growth_time (s.current_growth_time + dt) s.branches) := rfl

theorem updateGrowth_lv (ops : MathOps) (dt : ℚ) (s : Tree) :
    (Tree.updateGrowth ops dt s).leaf_vertices =
      buildLeafVerts ops
        (branchPass s.cfg.max_growth_time (s.current_growth_time + dt) s.branches)
        (leafPass s.cfg.max_growth_time (s.current_growth_time + dt)
          (branchPass s.cfg.max_growth_time (s.current_growth_time + dt) s.branches)
          s.leaves) := rfl

theorem updateGrowth_ctr (ops : MathOps) (dt : ℚ) (s : Tree) :
    (Tree.updateGrowth ops dt s).ctr = s.ctr := rfl

/-- The reachable-state invariant: positive total growth time, plus the
branch and leaf invariants at the current clock. -/
def TreeInv (s : Tree) : Prop :=
  0 < s.cfg.max_growth_time ∧
  BranchInv s.cfg.max_growth_time s.current_growth_time s.branches ∧
  LeafInv s.cfg.max_growth_time s.current_growth_time s.branches s.leaves

theorem TreeInv_updateGrowth (ops : MathOps) (dt : ℚ) (s : Tree)
    (h : TreeInv s) (hdt : 0 ≤ dt) : TreeInv (Tree.updateGrowth ops dt s) := by
  obtain ⟨hT, hB, hL⟩ := h
  have ht : s.current_growth_time ≤ s.current_growth_time + dt := by linarith
  have hB' : BranchInv s.cfg.max_growth_time (s.current_growth_time + dt) s.branches :=
    BranchInv_mono_time _ _ _ _ hB ht
  obtain ⟨hpB, hpS, hpM⟩ := branchPass_inv _ _ hT s.branches hB'
  have hL' : LeafInv s.cfg.max_growth_time (s.current_growth_time + dt)
      (branchPass s.cfg.max_growth_time (s.current_growth_time + dt) s.branches)
      s.leaves :=
    LeafInv_transport _ _ _ _ _ _ hL ht hpS hpM
  refine ⟨by rw [updateGrowth_cfg]; exact hT, ?_, ?_⟩
  · rw [updateGrowth_cfg, updateGrowth_time, updateGrowth_branches]
    exact hpB
  · rw [updateGrowth_cfg, updateGrowth_time, updateGrowth_branches, updateGrowth_leaves]
    exact (leafPass_inv _ _ hT _ _ hL').1

/-- One `updateGrowth` call with nonnegative delta never decreases any
branch or leaf growth fraction. -/
theorem updateGrowth_mono (ops : MathOps) (dt : ℚ) (s : Tree)
    (h : TreeInv s) (hdt : 0 ≤ dt) :
    (∀ j, (nthB s.branches j).growth_progress ≤
      (nthB (Tree.updateGrowth ops dt s).branches j).growth_progress) ∧
    (∀ j, j < s.leaves.length → (s.leaves.getD j default).growth_progress ≤
      ((Tree.updateGrowth ops dt s).leaves.getD j default).growth_progress) := by
  obtain ⟨hT, hB, hL⟩ := h
  have ht : s.current_growth_time ≤ s.current_growth_time + dt := by linarith
  have hB' : BranchInv s.cfg.max_growth_time (s.current_growth_time + dt) s.branches :=
    BranchInv_mono_time _ _ _ _ hB ht
  obtain ⟨hpB, hpS, hpM⟩ := branchPass_inv _ _ hT s.branches hB'
  have hL' : LeafInv s.cfg.max_growth_time (s.current_growth_time + dt)
      (branchPass s.cfg.max_growth_time (s.current_growth_time + dt) s.branches)
      s.leaves :=
    LeafInv_transport _ _ _ _ _ _ hL ht hpS hpM
  constructor
  · intro j
    rw [updateGrowth_branches]
    exact hpM j
  · intro j hj
    rw [updateGrowth_leaves]
    exact (leafPass_inv _ _ hT _ _ hL').2 j hj

/- ### Mesh sizes -/

theorem segFace_length (ops : MathOps) (start endP : Vec3) (sr er : ℚ)
    (right up : Vec3) (i : Nat) :
    (segFace ops start endP sr er right up i).length = 54 := rfl

theorem leafVertex_length (v : Vec3) (tu tv : ℚ) (n : Vec3) :
    (leafVertex v tu tv n).length = 9 := rfl

theorem addLeafQuad_length (ops : MathOps) (position normal : Vec3)
    (size growth : ℚ) : (addLeafQuad ops position normal size growth).length = 108 := rfl

theorem foldl_append_length {β : Type} (g : β → List ℚ) (c : Nat)
    (hg : ∀ x, (g x).length = c) :
    ∀ (l : List β) (init : List ℚ),
      (l.foldl (fun acc i => acc ++ g i) init).length = init.length + c * l.length := by
  intro l
  induction l with
  | nil => intro init; simp
  | cons x xs ih =>
    intro init
    rw [List.foldl_cons, ih]
    simp [hg x]
    ring

theorem addBranchSegment_length (ops : MathOps) (start endP : Vec3) (sr er : ℚ) :
    (addBranchSegment ops start endP sr er).length = 432 := by
  unfold addBranchSegment
  rw [foldl_append_length _ 54 (fun x => segFace_length ops start endP sr er _ _ x)]
  simp

/-- The number of branches with strictly positive growth fraction. -/
def numVisibleBranches (bs : List TreeBranch) : Nat :=
  bs.countP (fun b => decide (0 < b.growth_progress))

/-- The number of leaves with strictly positive growth fraction and a
valid parent branch index. -/
def numVisibleLeaves (bs : List TreeBranch) (ls : List TreeLeaf) : Nat :=
  ls.countP (fun l => decide (0 < l.growth_progress ∧ 0 ≤ l.parent_branch_index ∧
    l.parent_branch_index < (bs.length : Int)))

theorem buildBranchVertsAux_length (ops : MathOps) (full : List TreeBranch) :
    ∀ (rest : List TreeBranch) (i : Nat),
      (buildBranchVertsAux ops full i rest).length =
        432 * rest.countP (fun b => decide (0 < b.growth_progress)) := by
  intro rest
  induction rest with
  | nil => intro i; rfl
  | cons b bs ih =>
    intro i
    rw [buildBranchVertsAux, List.length_append, ih, List.countP_cons]
    by_cases hb : 0 < b.growth_progress
    · rw [if_pos hb]
      simp [hb, addBranchSegment_length]
      ring
    · rw [if_neg hb]
      simp [hb]

theorem buildBranchVerts_length (ops : MathOps) (bs : List TreeBranch) :
    (buildBranchVerts ops bs).length = 432 * numVisibleBranches bs :=
  buildBranchVertsAux_length ops bs bs 0

theorem buildLeafVertsAux_length (ops : MathOps) (bs : List TreeBranch) :
    ∀ ls : List TreeLeaf,
      (buildLeafVertsAux ops bs ls).length =
        108 * ls.countP (fun l => decide (0 < l.growth_progress ∧
          0 ≤ l.parent_branch_index ∧ l.parent_branch_index < (bs.length : Int))) := by
  intro ls
  induction ls with
  | nil => rfl
  | cons l ls ih =>
    rw [buildLeafVertsAux, List.length_append, ih, List.countP_cons]
    by_cases hl : 0 < l.growth_progress ∧ 0 ≤ l.parent_branch_index ∧
        l.parent_branch_index < (bs.length : Int)
    · rw [if_pos hl]
      simp [hl, addLeafQuad_length]
      ring
    · rw [if_neg hl]
      simp [hl]

theorem buildLeafVerts_length (ops : MathOps) (bs : List TreeBranch)
    (ls : List TreeLeaf) :
    (buildLeafVerts ops bs ls).length = 108 * numVisibleLeaves bs ls :=
  buildLeafVertsAux_length ops bs ls

/- ### Idempotence of `updateGrowth(0)` -/

theorem branchPass_length (T t : ℚ) (bs : List TreeBranch) :
    (branchPass T t bs).length = bs.length :=
  branchPassAux_length T t bs.length bs 0

/-- After the pass has run, re-applying the update body to any entry —
reading the already-final array — returns the entry unchanged (the pass
reaches a fixed point on parent-monotone arenas). -/
theorem branchPass_fix (T t : ℚ) (bs : List TreeBranch) (hm : ParentMonotone bs)
    (i : Nat) (hi : i < bs.length) :
    updBranch T t (branchPass T t bs) (nthB (branchPass T t bs) i) =
      nthB (branchPass T t bs) i := by
  have hri : nthB (branchPass T t bs) i =
      updBranch T t (passPrefix T t bs i) (nthB bs i) := branchPass_getD T t bs i hi
  have hal : (passPrefix T t bs i).length = bs.length := passPrefix_length T t bs i
  have hrl : (branchPass T t bs).length = bs.length := branchPass_length T t bs
  by_cases h1 : ((nthB bs i).generation : ℚ) * (T * (15/100)) < t
  · by_cases h2 : (nthB bs i).generation = 0
    · -- trunk: the stored value is the pure function of `t`
      set V : ℚ :=
        min 1 ((t - ((nthB bs i).generation : ℚ) * (T * (15/100))) / (T * (4/10))) with hV
      have hstep : updBranch T t (passPrefix T t bs i) (nthB bs i) =
          { nthB bs i with growth_progress := V } := by
        unfold updBranch; rw [if_pos h1, if_pos h2]
      rw [hri, hstep]
      set b' : TreeBranch := { nthB bs i with growth_progress := V } with hb'
      have hg : b'.generation = (nthB bs i).generation := rfl
      unfold updBranch
      rw [hg, if_pos h1, if_pos h2]
    · by_cases h3 : 0 ≤ (nthB bs i).parent_index ∧
          (nthB bs i).parent_index < (bs.length : Int)
      · -- gated child with a valid parent
        have hpi : (nthB bs i).parent_index.toNat < i := by
          have := hm i hi
          omega
        have hpagree : nthB (passPrefix T t bs i) (nthB bs i).parent_index.toNat =
            nthB (branchPass T t bs) (nthB bs i).parent_index.toNat := by
          unfold nthB
          exact (branchPass_getD_lt T t bs i _ hpi (by omega)).symm
        have h3a : 0 ≤ (nthB bs i).parent_index ∧
            (nthB bs i).parent_index < ((passPrefix T t bs i).length : Int) := by
          rw [hal]; exact h3
        have h3r : 0 ≤ (nthB bs i).parent_index ∧
            (nthB bs i).parent_index < ((branchPass T t bs).length : Int) := by
          rw [hrl]; exact h3
        by_cases h4 : 6/10 <
            (nthB (passPrefix T t bs i) (nthB bs i).parent_index.toNat).growth_progress
        · set W : ℚ :=
            min 1 ((t - max (((nthB bs i).generation : ℚ) * (T * (15/100)))
              ((6/10) * (T * (4/10)) +
                ((nthB (passPrefix T t bs i)
                  (nthB bs i).parent_index.toNat).generation : ℚ) * (T * (15/100)))) /
              (T * (4/10))) with hW
          have hstep : updBranch T t (passPrefix T t bs i) (nthB bs i) =
              { nthB bs i with growth_progress := W } := by
            unfold updBranch; rw [if_pos h1, if_neg h2, if_pos h3a, if_pos h4]
          rw [hri, hstep]
          set b' : TreeBranch := { nthB bs i with growth_progress := W } with hb'
          have hg : b'.generation = (nthB bs i).generation := rfl
          have hpx : b'.parent_index = (nthB bs i).parent_index := rfl
          unfold updBranch
          rw [hg, hpx, if_pos h1, if_neg h2, if_pos h3r, ← hpagree, if_pos h4]
        · have hstep : updBranch T t (passPrefix T t bs i) (nthB bs i) = nthB bs i := by
            unfold updBranch; rw [if_pos h1, if_neg h2, if_pos h3a, if_neg h4]
          rw [hri, hstep]
          unfold updBranch
          rw [if_pos h1, if_neg h2, if_pos h3r, ← hpagree, if_neg h4]
      · have h3a : ¬ (0 ≤ (nthB bs i).parent_index ∧
            (nthB bs i).parent_index < ((passPrefix T t bs i).length : Int)) := by
          rw [hal]; exact h3
        have h3r : ¬ (0 ≤ (nthB bs i).parent_index ∧
            (nthB bs i).parent_index < ((branchPass T t bs).length : Int)) := by
          rw [hrl]; exact h3
        have hstep : updBranch T t (passPrefix T t bs i) (nthB bs i) = nthB bs i := by
          unfold updBranch; rw [if_pos h1, if_neg h2, if_neg h3a]
        rw [hri, hstep]
        unfold updBranch
        rw [if_pos h1, if_neg h2, if_neg h3r]
  · have hstep : updBranch T t (passPrefix T t bs i) (nthB bs i) = nthB bs i := by
      unfold updBranch; rw [if_neg h1]
    rw [hri, hstep]
    unfold updBranch
    rw [if_neg h1]

/-- A list on which every entry is a fixed point of the update body is a
fixed point of the whole loop. -/
theorem passAux_of_fix (T t : ℚ) (r : List TreeBranch) :
    ∀ (f i : Nat),
      (∀ j, i ≤ j → j < i + f → updBranch T t r (nthB r j) = nthB r j) →
      branchPassAux T t r i f = r := by
  intro f
  induction f with
  | zero => intro i _; rfl
  | succ f ih =>
    intro i hfix
    rw [branchPassAux]
    have hstep : r.set i (updBranch T t r (nthB r i)) = r := by
      rw [hfix i (le_refl i) (by omega)]
      exact set_getD_id r i default
    rw [hstep]
    exact ih (i + 1) (fun j hj1 hj2 => hfix j (by omega) (by omega))

theorem branchPass_idem (T t : ℚ) (bs : List TreeBranch) (hm : ParentMonotone bs) :
    branchPass T t (branchPass T t bs) = branchPass T t bs := by
  show branchPassAux T t (branchPass T t bs) 0 (branchPass T t bs).length = _
  apply passAux_of_fix
  intro j _ hj
  rw [branchPass_length] at hj
  exact branchPass_fix T t bs hm j (by omega)

theorem updLeaf_idem (T t : ℚ) (bs : List TreeBranch) (l : TreeLeaf) :
    updLeaf T t bs (updLeaf T t bs l) = updLeaf T t bs l := by
  by_cases h1 : 0 ≤ l.parent_branch_index ∧ l.parent_branch_index < (bs.length : Int)
  · by_cases h2 : 2/5 < (nthB bs l.parent_branch_index.toNat).growth_progress
    · by_cases h3 : ((nthB bs l.parent_branch_index.toNat).generation : ℚ) *
          (T * (15/100)) + T * (1/10) + l.spawn_delay < t
      · set VL : ℚ :=
          min 1 ((t - (((nthB bs l.parent_branch_index.toNat).generation : ℚ) *
            (T * (15/100)) + T * (1/10) + l.spawn_delay)) / (T * (1/10))) with hVL
        have hrec : updLeaf T t bs l = { l with growth_progress := VL } := by
          unfold updLeaf; rw [if_pos h1, if_pos h2, if_pos h3]
        rw [hrec]
        set l' : TreeLeaf := { l with growth_progress := VL } with hl'
        have hpb : l'.parent_branch_index = l.parent_branch_index := rfl
        have hsd : l'.spawn_delay = l.spawn_delay := rfl
        unfold updLeaf
        rw [hpb, hsd, if_pos h1, if_pos h2, if_pos h3]
      · have hrec : updLeaf T t bs l = l := by
          unfold updLeaf; rw [if_pos h1, if_pos h2, if_neg h3]
        rw [hrec, hrec]
    · have hrec : updLeaf T t bs l = l := by
        unfold updLeaf; rw [if_pos h1, if_neg h2]
      rw [hrec, hrec]
  · have hrec : updLeaf T t bs l = l := by
      unfold updLeaf; rw [if_neg h1]
    rw [hrec, hrec]

theorem leafPass_idem (T t : ℚ) (bs : List TreeBranch) (ls : List TreeLeaf) :
    leafPass T t bs (leafPass T t bs ls) = leafPass T t bs ls := by
  unfold leafPass
  rw [List.map_map]
  exact List.map_congr_left (fun l _ => updLeaf_idem T t bs l)

/-- `advance(0)` is idempotent on the whole observable state: growth
fractions, both vertex buffers, the clock, everything. -/
theorem updateGrowth_zero_idem (ops : MathOps) (s : Tree)
    (hm : ParentMonotone s.branches) :
    Tree.updateGrowth ops 0 (Tree.updateGrowth ops 0 s) = Tree.updateGrowth ops 0 s := by
  simp only [Tree.updateGrowth, add_zero, updateGrowth_cfg]
  rw [branchPass_idem _ _ _ hm, leafPass_idem]

/- ### Generator postconditions -/

/-- `children.push_back(c)` on a single record. -/
def pushOne (b : TreeBranch) (c : Nat) : TreeBranch :=
  { b with children := b.children ++ [c] }

theorem pushChildAt_eq (bs : List TreeBranch) (p ci : Nat) :
    pushChildAt bs p ci = bs.set p (pushOne (nthB bs p) ci) := rfl

/-- A branch whose child loop has completed: 2-4 children below the
maximum generation, none at it. -/
def closedB (cfg : TreeCfg) (b : TreeBranch) : Prop :=
  if b.generation < cfg.max_generations
  then 2 ≤ b.children.length ∧ b.children.length ≤ 4
  else b.children = []

/-- Shape of every branch a finished subcall appended at position
`j`: zero progress, completed child list, parent in `[lo, j)`, and a
generation one above its parent's. -/
def regionOK (cfg : TreeCfg) (bs : List TreeBranch) (lo j : Nat) : Prop :=
  (nthB bs j).growth_progress = 0 ∧ closedB cfg (nthB bs j) ∧
  (lo : Int) ≤ (nthB bs j).parent_index ∧ (nthB bs j).parent_index < (j : Int) ∧
  (nthB bs j).generation =
    (nthB bs (nthB bs j).parent_index.toNat).generation + 1

/-- Shape of every leaf a finished subcall appended: a valid parent at
index `≥ lo` of generation at least 2, and zero progress. -/
def leafOK (bs : List TreeBranch) (lo : Nat) (l : TreeLeaf) : Prop :=
  (lo : Int) ≤ l.parent_branch_index ∧ l.parent_branch_index < (bs.length : Int) ∧
  2 ≤ (nthB bs l.parent_branch_index.toNat).generation ∧ l.growth_progress = 0

theorem leafOK_mono_lo (bs : List TreeBranch) (lo lo' : Nat) (l : TreeLeaf)
    (h : leafOK bs lo l) (hlo : lo' ≤ lo) : leafOK bs lo' l := by
  obtain ⟨a, b, c, d⟩ := h
  exact ⟨by omega, b, c, d⟩

theorem regionOK_mono_lo (cfg : TreeCfg) (bs : List TreeBranch) (lo lo' j : Nat)
    (h : regionOK cfg bs lo j) (hlo : lo' ≤ lo) : regionOK cfg bs lo' j := by
  obtain ⟨a, b, c, d, e⟩ := h
  exact ⟨a, b, by omega, d, e⟩

theorem genLeavesLoop_post (ops : MathOps) (env : Env) (bi : Nat) (bend : Vec3) :
    ∀ (k : Nat) (st : GenSt),
      (genLeavesLoop ops env bi bend st k).branches = st.branches ∧
      ∃ L, (genLeavesLoop ops env bi bend st k).leaves = st.leaves ++ L ∧
        ∀ l ∈ L, l.parent_branch_index = (bi : Int) ∧ l.growth_progress = 0 := by
  intro k
  induction k with
  | zero =>
    intro st
    exact ⟨rfl, [], by simp [genLeavesLoop], fun l hl => absurd hl (List.not_mem_nil l)⟩
  | succ k ih =>
    intro st
    rw [genLeavesLoop]
    obtain ⟨hb, L, hL, hOK⟩ := ih _
    refine ⟨hb, mkLeaf ops env bi bend st.ctr :: L, ?_, ?_⟩
    · rw [hL]
      simp
    · intro l hl
      rcases List.mem_cons.mp hl with rfl | hl
      · exact ⟨rfl, rfl⟩
      · exact hOK l hl

/-- Everything `Tree::generateBranch` guarantees about its result,
relative to the state `st` it was entered with (`n₀` abbreviates
`st.branches.length`, the index the new branch gets): the arena strictly
grows; entries below `n₀` other than the parent are untouched; the parent
gains exactly the new index as one more child; the new branch has the
requested parent, generation, zero progress and a completed child list;
every deeper new entry is a completed branch whose parent lies in
`[n₀, j)` one generation up; and the appended leaves all point at new
branches of generation at least 2 with zero progress. -/
structure GBPost (cfg : TreeCfg) (st st' : GenSt) (p : Int) (g : Nat) : Prop where
  len : st.branches.length < st'.branches.length
  pres : ∀ j, j < st.branches.length → (j : Int) ≠ p →
    nthB st'.branches j = nthB st.branches j
  push : 0 ≤ p → p.toNat < st.branches.length →
    nthB st'.branches p.toNat = pushOne (nthB st.branches p.toNat) st.branches.length
  root_parent : (nthB st'.branches st.branches.length).parent_index = p
  root_gen : (nthB st'.branches st.branches.length).generation = g
  root_prog : (nthB st'.branches st.branches.length).growth_progress = 0
  root_closed : closedB cfg (nthB st'.branches st.branches.length)
  region : ∀ j, st.branches.length < j → j < st'.branches.length →
    regionOK cfg st'.branches st.branches.length j
  leafs : ∃ L, st'.leaves = st.leaves ++ L ∧
    ∀ l ∈ L, leafOK st'.branches st.branches.length l

/-- What the child loop of `Tree::generateBranch` guarantees when entered
with `cnt` children left to create for the branch at `parentIdx`. -/
structure GCPost (cfg : TreeCfg) (st st' : GenSt) (parentIdx : Nat)
    (cnt : Nat) : Prop where
  len : st.branches.length ≤ st'.branches.length
  pres : ∀ j, j < st.branches.length → j ≠ parentIdx →
    nthB st'.branches j = nthB st.branches j
  push : ∃ cs, nthB st'.branches parentIdx =
      { nthB st.branches parentIdx with
          children := (nthB st.branches parentIdx).children ++ cs } ∧ cs.length = cnt
  region : ∀ j, st.branches.length ≤ j → j < st'.branches.length →
    regionOK cfg st'.branches parentIdx j
  leafs : ∃ L, st'.leaves = st.leaves ++ L ∧
    ∀ l ∈ L, leafOK st'.branches st.branches.length l

theorem registerChild_leaves (st : GenSt) (p : Int) (ci : Nat) :
    (registerChild st p ci).leaves = st.leaves := by
  unfold registerChild; split_ifs <;> rfl

theorem registerChild_ctr (st : GenSt) (p : Int) (ci : Nat) :
    (registerChild st p ci).ctr = st.ctr := by
  unfold registerChild; split_ifs <;> rfl

theorem registerChild_length (st : GenSt) (p : Int) (ci : Nat) :
    (registerChild st p ci).branches.length = st.branches.length := by
  unfold registerChild
  split_ifs
  · show (pushChildAt st.branches p.toNat ci).length = _
    rw [pushChildAt_eq, List.length_set]
  · rfl

theorem generateChildren_stop (ops : MathOps) (env : Env) (cfg : TreeCfg)
    (st : GenSt) (parentIdx : Nat) (cs : Vec3) (len rad : ℚ) (cg i n : Nat)
    (h : ¬ i < n) :
    generateChildren ops env cfg st parentIdx cs len rad cg i n = st := by
  rw [generateChildren, dif_neg h]

theorem generateChildren_step (ops : MathOps) (env : Env) (cfg : TreeCfg)
    (st : GenSt) (parentIdx : Nat) (cs : Vec3) (len rad : ℚ) (cg i n : Nat)
    (h : i < n) :
    generateChildren ops env cfg st parentIdx cs len rad cg i n =
      generateChildren ops env cfg
        (generateBranch ops env cfg { st with ctr := st.ctr + 2 } (parentIdx : Int)
          cs (childDirection ops env cfg st.ctr i n)
          (len * cfg.length_reduction_factor) (rad * cfg.radius_reduction_factor) cg)
        parentIdx cs len rad cg (i + 1) n := by
  rw [generateChildren, dif_pos h]

theorem generateChildren_post (ops : MathOps) (env : Env) (cfg : TreeCfg)
    (childGen : Nat)
    (HGB : ∀ (st : GenSt) (p : Int) (cs dir : Vec3) (len rad : ℚ),
      p < (st.branches.length : Int) →
      GBPost cfg st (generateBranch ops env cfg st p cs dir len rad childGen) p childGen) :
    ∀ (cnt parentIdx : Nat) (cs : Vec3) (len rad : ℚ) (i n : Nat),
      n - i = cnt → ∀ st : GenSt,
      parentIdx < st.branches.length →
      (nthB st.branches parentIdx).generation + 1 = childGen →
      GCPost cfg st
        (generateChildren ops env cfg st parentIdx cs len rad childGen i n)
        parentIdx cnt := by
  intro cnt
  induction cnt with
  | zero =>
    intro parentIdx cs len rad i n hcnt st hp hgen
    rw [generateChildren_stop _ _ _ _ _ _ _ _ _ _ _ (by omega)]
    refine ⟨le_refl _, fun j _ _ => rfl, ⟨[], by simp, rfl⟩,
      fun j h1 h2 => absurd h2 (by omega),
      ⟨[], by simp, fun l hl => absurd hl (List.not_mem_nil l)⟩⟩
  | succ cnt ih =>
    intro parentIdx cs len rad i n hcnt st hp hgen
    have hin : i < n := by omega
    rw [generateChildren_step _ _ _ _ _ _ _ _ _ _ _ hin]
    set stA : GenSt := { st with ctr := st.ctr + 2 } with hstA
    set stMid : GenSt := generateBranch ops env cfg stA (parentIdx : Int) cs
      (childDirection ops env cfg st.ctr i n) (len * cfg.length_reduction_factor)
      (rad * cfg.radius_reduction_factor) childGen with hstMid
    have hGB : GBPost cfg stA stMid (parentIdx : Int) childGen :=
      HGB stA _ _ _ _ _ (by show (parentIdx : Int) < (st.branches.length : Int); exact_mod_cast hp)
    have hAlen : stA.branches.length = st.branches.length := rfl
    have hlen1 : st.branches.length < stMid.branches.length := hGB.len
    have hpush1 : nthB stMid.branches parentIdx =
        pushOne (nthB st.branches parentIdx) st.branches.length :=
      hGB.push (Int.natCast_nonneg parentIdx) hp
    have hpres1 : ∀ j, j < st.branches.length → j ≠ parentIdx →
        nthB stMid.branches j = nthB st.branches j := by
      intro j hj hne
      exact hGB.pres j hj (by exact_mod_cast hne)
    have hgen1 : (nthB stMid.branches parentIdx).generation + 1 = childGen := by
      rw [hpush1]; exact hgen
    have hRec := ih parentIdx cs len rad (i + 1) n (by omega) stMid (by omega) hgen1
    set stFin : GenSt := generateChildren ops env cfg stMid parentIdx cs len rad
      childGen (i + 1) n with hstFin
    have hlen2 : stMid.branches.length ≤ stFin.branches.length := hRec.len
    obtain ⟨cs2, hpush2, hcs2⟩ := hRec.push
    have hpres2 : ∀ j, j < stMid.branches.length → j ≠ parentIdx →
        nthB stFin.branches j = nthB stMid.branches j := hRec.pres
    refine ⟨by omega, ?_, ?_, ?_, ?_⟩
    · -- prefix preservation
      intro j hj hne
      rw [hpres2 j (by omega) hne, hpres1 j hj hne]
    · -- the parent gained `st.branches.length :: cs2` as new children
      refine ⟨st.branches.length :: cs2, ?_, by simp [hcs2]⟩
      rw [hpush2, hpush1]
      simp [pushOne]
    · -- the new region
      intro j hj1 hj2
      by_cases hjm : j < stMid.branches.length
      · have hjne : j ≠ parentIdx := by omega
        have hpresF : nthB stFin.branches j = nthB stMid.branches j :=
          hpres2 j (by omega) hjne
        by_cases hje : j = st.branches.length
        · -- the child branch created by this iteration
          subst hje
          have hparent : (nthB stFin.branches st.branches.length).parent_index =
              (parentIdx : Int) := by rw [hpresF]; exact hGB.root_parent
          refine ⟨?_, ?_, ?_, ?_, ?_⟩
          · rw [hpresF]; exact hGB.root_prog
          · rw [hpresF]; exact hGB.root_closed
          · rw [hparent]
          · rw [hparent]; exact_mod_cast hp
          · rw [hparent]
            have htn : ((parentIdx : Int)).toNat = parentIdx := rfl
            rw [htn, hpresF, hGB.root_gen]
            have : nthB stFin.branches parentIdx =
                { nthB st.branches parentIdx with
                    children := (nthB st.branches parentIdx).children ++
                      (st.branches.length :: cs2) } := by
              rw [hpush2, hpush1]; simp [pushOne]
            rw [this]
            exact hgen.symm
        · -- deeper branches created by the recursive call of this iteration
          obtain ⟨r1, r2, r3, r4, r5⟩ := hGB.region j (by omega) hjm
          have hpar_lo : (st.branches.length : Int) ≤
              (nthB stMid.branches j).parent_index := r3
          have hpar_hi : (nthB stMid.branches j).parent_index < (j : Int) := r4
          have hparne : (nthB stMid.branches j).parent_index.toNat ≠ parentIdx := by
            omega
          have hparlt : (nthB stMid.branches j).parent_index.toNat <
              stMid.branches.length := by omega
          refine ⟨by rw [hpresF]; exact r1, by rw [hpresF]; exact r2, ?_, ?_, ?_⟩
          · rw [hpresF]; omega
          · rw [hpresF]; exact hpar_hi
          · rw [hpresF, hpres2 _ hparlt hparne]
            exact r5
      · -- branches created by the later iterations
        exact regionOK_mono_lo cfg stFin.branches parentIdx parentIdx j
          (hRec.region j (by omega) hj2) (le_refl _)
    · -- leaves
      obtain ⟨L1, e1, o1⟩ := hGB.leafs
      obtain ⟨L2, e2, o2⟩ := hRec.leafs
      refine ⟨L1 ++ L2, ?_, ?_⟩
      · rw [e2, e1]
        show (st.leaves ++ L1) ++ L2 = st.leaves ++ (L1 ++ L2)
        rw [List.append_assoc]
      · intro l hl
        rcases List.mem_append.mp hl with hl | hl
        · obtain ⟨a, b, c, d⟩ := o1 l hl
          have hlp : l.parent_branch_index.toNat < stMid.branches.length := by omega
          have hlpne : l.parent_branch_index.toNat ≠ parentIdx := by omega
          refine ⟨a, by omega, ?_, d⟩
          rw [hpres2 _ hlp hlpne]
          exact c
        · obtain ⟨a, b, c, d⟩ := o2 l hl
          exact ⟨by omega, b, c, d⟩

theorem gbFinish_post (ops : MathOps) (env : Env) (st : GenSt) (bi : Nat)
    (bend : Vec3) (gen : Nat) :
    (gbFinish ops env st bi bend gen).branches = st.branches ∧
    ∃ L, (gbFinish ops env st bi bend gen).leaves = st.leaves ++ L ∧
      ∀ l ∈ L, l.parent_branch_index = (bi : Int) ∧ l.growth_progress = 0 ∧
        2 ≤ gen := by
  unfold gbFinish
  split_ifs with h
  · obtain ⟨hb, L, hL, hOK⟩ := genLeavesLoop_post ops env bi bend
      (env.uniformInt 6 14 st.ctr) { st with ctr := st.ctr + 1 }
    exact ⟨hb, L, hL, fun l hl => ⟨(hOK l hl).1, (hOK l hl).2, h⟩⟩
  · exact ⟨rfl, [], by simp, fun l hl => absurd hl (List.not_mem_nil l)⟩

theorem gbChildren_post (ops : MathOps) (env : Env) (cfg : TreeCfg)
    (hEnv : EnvOk env) (g : Nat)
    (HGB1 : g < cfg.max_generations →
      ∀ (st : GenSt) (p : Int) (cs dir : Vec3) (len rad : ℚ),
        p < (st.branches.length : Int) →
        GBPost cfg st (generateBranch ops env cfg st p cs dir len rad (g + 1)) p (g + 1))
    (st : GenSt) (bi : Nat) (bend : Vec3) (len rad : ℚ)
    (hbi : bi < st.branches.length)
    (hgen : (nthB st.branches bi).generation = g) :
    ∃ cnt, GCPost cfg st (gbChildren ops env cfg st bi bend len rad g) bi cnt ∧
      (g < cfg.max_generations → 2 ≤ cnt ∧ cnt ≤ 4) ∧
      (¬ g < cfg.max_generations → cnt = 0) := by
  rw [gbChildren]
  split_ifs with h
  · have hnum := hEnv 2 4 st.ctr (by norm_num)
    have hpost := generateChildren_post ops env cfg (g + 1) (HGB1 h)
      (env.uniformInt 2 4 st.ctr - 0) bi bend len rad 0 (env.uniformInt 2 4 st.ctr)
      rfl { st with ctr := st.ctr + 1 } hbi (by rw [hgen])
    refine ⟨env.uniformInt 2 4 st.ctr - 0,
      ⟨hpost.len, hpost.pres, hpost.push, hpost.region, hpost.leafs⟩,
      fun _ => by omega, fun hc => absurd h hc⟩
  · exact ⟨0, ⟨le_refl _, fun j _ _ => rfl, ⟨[], by simp, rfl⟩,
      fun j h1 h2 => absurd h2 (by omega),
      ⟨[], by simp, fun l hl => absurd hl (List.not_mem_nil l)⟩⟩,
      fun hc => absurd hc h, fun _ => rfl⟩

theorem appendBranch_length (st : GenSt) (b : TreeBranch) :
    (appendBranch st b).branches.length = st.branches.length + 1 := by
  show (st.branches ++ [b]).length = _
  simp

theorem generateBranch_post_aux (ops : MathOps) (env : Env) (cfg : TreeCfg)
    (hEnv : EnvOk env) (g : Nat)
    (HGB1 : g < cfg.max_generations →
      ∀ (st : GenSt) (p : Int) (cs dir : Vec3) (len rad : ℚ),
        p < (st.branches.length : Int) →
        GBPost cfg st (generateBranch ops env cfg st p cs dir len rad (g + 1)) p (g + 1)) :
    ∀ (st : GenSt) (p : Int) (start dir : Vec3) (len rad : ℚ),
      p < (st.branches.length : Int) →
      GBPost cfg st (generateBranch ops env cfg st p start dir len rad g) p g := by
  intro st p start dir len rad hp
  rw [generateBranch]
  set b : TreeBranch := mkBranch p start dir len rad g with hb
  set st1 : GenSt := appendBranch st b with hst1
  set st2 : GenSt := registerChild st1 p st.branches.length with hst2
  have h1len : st1.branches.length = st.branches.length + 1 := appendBranch_length st b
  have h2len : st2.branches.length = st.branches.length + 1 := by
    rw [hst2, registerChild_length]; exact h1len
  have h1root : nthB st1.branches st.branches.length = b :=
    getD_append_len st.branches b default
  have h2root : nthB st2.branches st.branches.length = b := by
    rw [hst2]
    unfold registerChild
    split_ifs with hp0
    · show nthB (pushChildAt st1.branches p.toNat st.branches.length) _ = b
      rw [pushChildAt_eq]
      unfold nthB
      rw [getD_set_ne _ _ _ _ _ (by omega)]
      exact h1root
    · exact h1root
  have h2pres : ∀ j, j < st.branches.length → (j : Int) ≠ p →
      nthB st2.branches j = nthB st.branches j := by
    intro j hj hne
    have h1j : nthB st1.branches j = nthB st.branches j :=
      getD_append_lt _ _ _ _ hj
    rw [hst2]
    unfold registerChild
    split_ifs with hp0
    · show nthB (pushChildAt st1.branches p.toNat st.branches.length) j = _
      rw [pushChildAt_eq]
      unfold nthB
      rw [getD_set_ne _ _ _ _ _ (by omega)]
      exact h1j
    · exact h1j
  have h2push : 0 ≤ p →
      nthB st2.branches p.toNat = pushOne (nthB st.branches p.toNat)
        st.branches.length := by
    intro hp0
    have hptn : p.toNat < st.branches.length := by omega
    have h1p : nthB st1.branches p.toNat = nthB st.branches p.toNat :=
      getD_append_lt _ _ _ _ hptn
    rw [hst2]
    unfold registerChild
    rw [if_pos hp0]
    show nthB (pushChildAt st1.branches p.toNat st.branches.length) _ = _
    rw [pushChildAt_eq]
    unfold nthB
    unfold nthB at h1p
    rw [getD_set_self _ _ _ _ (by omega), h1p]
  have h2leaves : st2.leaves = st.leaves := by
    rw [hst2, registerChild_leaves]
    exact rfl
  have hgen2 : (nthB st2.branches st.branches.length).generation = g := by
    rw [h2root]
    exact rfl
  obtain ⟨cnt, hGC, hcnt24, hcnt0⟩ := gbChildren_post ops env cfg hEnv g HGB1 st2
    st.branches.length (start + Vec3.smul len dir) len rad (by omega) hgen2
  set st3 : GenSt := gbChildren ops env cfg st2 st.branches.length
    (start + Vec3.smul len dir) len rad g with hst3
  obtain ⟨hfb, L3, hfl, hfo⟩ := gbFinish_post ops env st3 st.branches.length
    (start + Vec3.smul len dir) g
  obtain ⟨cs, hcs, hcsl⟩ := hGC.push
  have hroot3 : nthB st3.branches st.branches.length = { b with children := cs } := by
    rw [hcs, h2root]
    exact rfl
  have h3len : st.branches.length < st3.branches.length := by
    have := hGC.len
    omega
  obtain ⟨Lgc, egc, ogc⟩ := hGC.leafs
  refine ⟨?_, ?_, ?_, ?_, ?_, ?_, ?_, ?_, ?_⟩
  · -- length grows
    rw [hfb]
    omega
  · -- prefix preservation
    intro j hj hne
    unfold nthB
    rw [hfb]
    show nthB st3.branches j = nthB st.branches j
    rw [hGC.pres j (by omega) (by omega), h2pres j hj hne]
  · -- the parent's new child entry
    intro hp0 hptn
    unfold nthB
    rw [hfb]
    show nthB st3.branches p.toNat = _
    rw [hGC.pres p.toNat (by omega) (by omega), h2push hp0]
    exact rfl
  · -- root parent index
    unfold nthB
    rw [hfb]
    show (nthB st3.branches st.branches.length).parent_index = p
    rw [hroot3]
    exact rfl
  · -- root generation
    unfold nthB
    rw [hfb]
    show (nthB st3.branches st.branches.length).generation = g
    rw [hroot3]
    exact rfl
  · -- root progress
    unfold nthB
    rw [hfb]
    show (nthB st3.branches st.branches.length).growth_progress = 0
    rw [hroot3]
    exact rfl
  · -- root child count
    unfold nthB
    rw [hfb]
    show closedB cfg (nthB st3.branches st.branches.length)
    rw [hroot3]
    unfold closedB
    by_cases hglt : g < cfg.max_generations
    · rw [if_pos (by exact hglt)]
      have := hcnt24 hglt
      show 2 ≤ cs.length ∧ cs.length ≤ 4
      omega
    · rw [if_neg (by exact hglt)]
      show cs = []
      exact List.length_eq_zero.mp (by omega)
  · -- region
    intro j hj1 hj2
    rw [hfb] at hj2
    have hro : regionOK cfg st3.branches st.branches.length j :=
      hGC.region j (by omega) hj2
    unfold regionOK nthB at hro ⊢
    rw [hfb]
    exact hro
  · -- leaves
    refine ⟨Lgc ++ L3, ?_, ?_⟩
    · rw [hfl, egc, h2leaves, List.append_assoc]
    · intro l hl
      rcases List.mem_append.mp hl with hl | hl
      · obtain ⟨a1, a2, a3, a4⟩ := ogc l hl
        refine ⟨by omega, ?_, ?_, a4⟩
        · rw [hfb]; omega
        · unfold nthB
          rw [hfb]
          exact a3
      · obtain ⟨a1, a2, a3⟩ := hfo l hl
        refine ⟨by rw [a1], ?_, ?_, a2⟩
        · rw [a1, hfb]
          exact_mod_cast h3len
        · rw [a1]
          show 2 ≤ (nthB (gbFinish ops env st3 st.branches.length
            (start + Vec3.smul len dir) g).branches
              ((st.branches.length : Int)).toNat).generation
          have htn : ((st.branches.length : Int)).toNat = st.branches.length := rfl
          rw [htn]
          unfold nthB
          rw [hfb]
          show 2 ≤ (nthB st3.branches st.branches.length).generation
          rw [hroot3]
          show 2 ≤ g
          exact a3

theorem generateBranch_post (ops : MathOps) (env : Env) (cfg : TreeCfg)
    (hEnv : EnvOk env) :
    ∀ (M g : Nat), cfg.max_generations + 1 - g ≤ M →
      ∀ (st : GenSt) (p : Int) (start dir : Vec3) (len rad : ℚ),
        p < (st.branches.length : Int) →
        GBPost cfg st (generateBranch ops env cfg st p start dir len rad g) p g := by
  intro M
  induction M with
  | zero =>
    intro g hg
    exact generateBranch_post_aux ops env cfg hEnv g (fun hlt => absurd hlt (by omega))
  | succ M ih =>
    intro g hg
    exact generateBranch_post_aux ops env cfg hEnv g (fun _ => ih (g + 1) (by omega))

/-- The root call of `Tree::generate` satisfies the branch-generation
postcondition, starting from the cleared state. -/
theorem generate_post (ops : MathOps) (env : Env) (cfg : TreeCfg) (hEnv : EnvOk env) :
    GBPost cfg { branches := [], leaves := [], ctr := 0 }
      (generateBranch ops env cfg { branches := [], leaves := [], ctr := 0 }
        (-1) ⟨0, 0, 0⟩ ⟨0, 1, 0⟩ 3 (2/10) 0) (-1) 0 :=
  generateBranch_post ops env cfg hEnv (cfg.max_generations + 1) 0 (by omega)
    _ _ _ _ _ _ (by norm_num)

theorem generate_branches (ops : MathOps) (env : Env) (s0 : Tree) :
    (Tree.generate ops env s0).branches =
      (generateBranch ops env s0.cfg { branches := [], leaves := [], ctr := 0 }
        (-1) ⟨0, 0, 0⟩ ⟨0, 1, 0⟩ 3 (2/10) 0).branches := rfl

theorem generate_leaves (ops : MathOps) (env : Env) (s0 : Tree) :
    (Tree.generate ops env s0).leaves =
      (generateBranch ops env s0.cfg { branches := [], leaves := [], ctr := 0 }
        (-1) ⟨0, 0, 0⟩ ⟨0, 1, 0⟩ 3 (2/10) 0).leaves := rfl

/-- The structural facts about a freshly generated tree. -/
theorem generate_shape (ops : MathOps) (env : Env) (s0 : Tree) (hEnv : EnvOk env) :
    0 < (Tree.generate ops env s0).branches.length ∧
    (nthB (Tree.generate ops env s0).branches 0).parent_index = -1 ∧
    (nthB (Tree.generate ops env s0).branches 0).generation = 0 ∧
    (∀ j, j < (Tree.generate ops env s0).branches.length →
      (nthB (Tree.generate ops env s0).branches j).growth_progress = 0 ∧
      closedB s0.cfg (nthB (Tree.generate ops env s0).branches j)) ∧
    (∀ j, 0 < j → j < (Tree.generate ops env s0).branches.length →
      0 ≤ (nthB (Tree.generate ops env s0).branches j).parent_index ∧
      (nthB (Tree.generate ops env s0).branches j).parent_index < (j : Int) ∧
      (nthB (Tree.generate ops env s0).branches j).generation =
        (nthB (Tree.generate ops env s0).branches
          (nthB (Tree.generate ops env s0).branches j).parent_index.toNat).generation
          + 1) ∧
    (∀ l ∈ (Tree.generate ops env s0).leaves, leafOK (Tree.generate ops env s0).branches 0 l) := by
  have hP := generate_post ops env s0.cfg hEnv
  rw [generate_branches, generate_leaves]
  have h0 : ({ branches := [], leaves := [], ctr := 0 } : GenSt).branches.length = 0 := rfl
  refine ⟨by have := hP.len; omega, ?_, ?_, ?_, ?_, ?_⟩
  · exact hP.root_parent
  · exact hP.root_gen
  · intro j hj
    by_cases hj0 : j = 0
    · subst hj0
      exact ⟨hP.root_prog, hP.root_closed⟩
    · obtain ⟨r1, r2, _, _, _⟩ := hP.region j (by omega) hj
      exact ⟨r1, r2⟩
  · intro j hj0 hj
    obtain ⟨_, _, r3, r4, r5⟩ := hP.region j (by omega) hj
    refine ⟨by exact_mod_cast r3, r4, r5⟩
  · intro l hl
    obtain ⟨L, e, o⟩ := hP.leafs
    have : l ∈ L := by
      rw [e] at hl
      simpa using hl
    exact o l this

/-- A freshly generated tree is parent-monotone: every branch was pushed
after its parent. -/
theorem generate_parentMonotone (ops : MathOps) (env : Env) (s0 : Tree)
    (hEnv : EnvOk env) : ParentMonotone (Tree.generate ops env s0).branches := by
  obtain ⟨hlen, hrp, _, _, hreg, _⟩ := generate_shape ops env s0 hEnv
  intro j hj
  by_cases hj0 : j = 0
  · subst hj0
    rw [hrp]
    norm_num
  · exact (hreg j (by omega) hj).2.1

/-- A freshly generated tree satisfies the growth invariant (all
fractions are zero, the clock is reset). -/
theorem generate_TreeInv (ops : MathOps) (env : Env) (s0 : Tree)
    (hEnv : EnvOk env) (hT : 0 < s0.cfg.max_growth_time) :
    TreeInv (Tree.generate ops env s0) := by
  obtain ⟨_, _, _, hz, _, hlv⟩ := generate_shape ops env s0 hEnv
  refine ⟨hT, ?_, ?_⟩
  · intro i hi
    rw [(hz i hi).1]
    exact ⟨le_refl 0, by norm_num, Or.inl rfl⟩
  · intro l hl
    rw [(hlv l hl).2.2.2]
    exact ⟨le_refl 0, by norm_num, Or.inl rfl⟩

/-- The states the program can actually be in: a `Tree()` constructor
call (possibly with other positive-total-time configurations) followed by
`generate()` and any number of `updateGrowth(dt)` calls with `dt ≥ 0`;
`generate()` may also re-run at any time. -/
inductive Reachable : Tree → Prop
  | generated (ops : MathOps) (env : Env) (s0 : Tree) :
      EnvOk env → 0 < s0.cfg.max_growth_time → Reachable (Tree.generate ops env s0)
  | stepped (ops : MathOps) (dt : ℚ) (s : Tree) :
      Reachable s → 0 ≤ dt → Reachable (Tree.updateGrowth ops dt s)

theorem reachable_inv {s : Tree} (h : Reachable s) : TreeInv s := by
  induction h with
  | generated ops env s0 hEnv hT => exact generate_TreeInv ops env s0 hEnv hT
  | stepped ops dt s _ hdt ih => exact TreeInv_updateGrowth ops dt s ih hdt

/- ### Concrete instantiations used by the witnesses -/

/-- A concrete, fully computable interpretation of the transcendental
operations (used only to instantiate theorems at concrete inputs; on the
axis-aligned vectors of those inputs `id` agrees with `glm::normalize`). -/
def idOps : MathOps :=
  { piQ := 0, sinQ := id, cosQ := id, normalize3 := id, length3 := fun _ => 1 }

/-- A concrete oracle: every draw returns the lower bound of its range. -/
def env0 : Env :=
  { uniformReal := fun lo _ _ => lo, uniformInt := fun lo _ _ => lo }

theorem envOk_env0 : EnvOk env0 := fun lo _ _ h => ⟨le_refl lo, h⟩

/-- The scenario tree of the spec's end-to-end test: total growth time
10, a root (generation 0) with a single generation-1 child, clock 0. -/
def sC3 : Tree :=
  { cfg := defaultCfg
    branches :=
      [{ start := ⟨0, 0, 0⟩, endP := ⟨0, 3, 0⟩, radius := 1/5, generation := 0
         growth_progress := 0, children := [1], parent_index := -1 },
       { start := ⟨0, 3, 0⟩, endP := ⟨0, 4, 0⟩, radius := 1/10, generation := 1
         growth_progress := 0, children := [], parent_index := 0 }]
    leaves := [], branch_vertices := [], leaf_vertices := []
    current_growth_time := 0, ctr := 0 }

def cfgW7 : TreeCfg :=
  { max_growth_time := 10, max_generations := 1, branch_angle_variance := 45
    length_reduction_factor := 7/10, radius_reduction_factor := 7/10 }

/-- Reachable state with a positive-progress generation-1 branch. -/
def sW7 : Tree :=
  Tree.updateGrowth idOps 1 (Tree.updateGrowth idOps (3/2)
    (Tree.generate idOps env0 { Tree.init with cfg := cfgW7 }))

def cfgW8 : TreeCfg :=
  { max_growth_time := 10, max_generations := 2, branch_angle_variance := 45
    length_reduction_factor := 7/10, radius_reduction_factor := 7/10 }

/-- Reachable state with a positive-progress leaf. -/
def sW8 : Tree :=
  Tree.updateGrowth idOps 6 (Tree.generate idOps env0 { Tree.init with cfg := cfgW8 })

/-- A two-branch parent-monotone arena (root plus one child). -/
def bW : List TreeBranch :=
  [{ start := ⟨0, 0, 0⟩, endP := ⟨0, 3, 0⟩, radius := 1/5, generation := 0
     growth_progress := 1/2, children := [1], parent_index := -1 },
   { start := ⟨0, 3, 0⟩, endP := ⟨0, 4, 0⟩, radius := 1/10, generation := 1
     growth_progress := 1/4, children := [], parent_index := 0 }]

/-- A fully grown single trunk, parent of `leafC4`. -/
def bsC4 : List TreeBranch :=
  [{ start := ⟨0, 0, 0⟩, endP := ⟨0, 1, 0⟩, radius := 1/5, generation := 0
     growth_progress := 1, children := [], parent_index := -1 }]

/-- A barely grown leaf (`size = 0.4`, growth fraction `0.01`). -/
def leafC4 : TreeLeaf :=
  { position := ⟨0, 1, 0⟩, normal := ⟨0, 0, 1⟩, size := 2/5
    growth_progress := 1/100, parent_branch_index := 0, spawn_delay := 0 }

/- ### The claims -/

/-- Claim C1: on a parent-monotone arena (the shape `generate()` always
produces), `calculateAbsoluteBranchStart` returns the stored start point
for a root branch (parent index `-1`) and `calculateAbsoluteBranchEnd`
of the parent otherwise; `calculateAbsoluteBranchEnd` returns the
absolute start plus the stored extension scaled by the growth fraction;
and on any index outside the collection both return the zero vector. -/
theorem claim_C1 (bs : List TreeBranch) (hm : ParentMonotone bs) (i : Int) :
    ((i < 0 ∨ (bs.length : Int) ≤ i) →
      calculateAbsoluteBranchStart bs i = Vec3.zero ∧
      calculateAbsoluteBranchEnd bs i = Vec3.zero) ∧
    (0 ≤ i → i < (bs.length : Int) →
      ((nthB bs i.toNat).parent_index = -1 →
        calculateAbsoluteBranchStart bs i = (nthB bs i.toNat).start) ∧
      ((nthB bs i.toNat).parent_index ≠ -1 →
        calculateAbsoluteBranchStart bs i =
          calculateAbsoluteBranchEnd bs (nthB bs i.toNat).parent_index) ∧
      calculateAbsoluteBranchEnd bs i =
        calculateAbsoluteBranchStart bs i +
          Vec3.smul (nthB bs i.toNat).growth_progress
            ((nthB bs i.toNat).endP - (nthB bs i.toNat).start)) := by
  constructor
  · intro h
    exact ⟨calcStart_oob bs i h, calcEnd_oob bs i h⟩
  · intro h0 hlen
    exact ⟨calcStart_root bs i h0 hlen,
      calcStart_child bs hm i h0 hlen,
      calcEnd_eq bs hm i h0 hlen⟩

theorem claim_C1_witness :
    ParentMonotone bW ∧
    calculateAbsoluteBranchEnd bW 1 =
      calculateAbsoluteBranchStart bW 1 +
        Vec3.smul (nthB bW 1).growth_progress ((nthB bW 1).endP - (nthB bW 1).start) :=
  ⟨by with_unfolding_all decide,
    ((claim_C1 bW (by with_unfolding_all decide) 1).2 (by norm_num)
      (by with_unfolding_all decide)).2.2⟩

/-- Claim C2: on every reachable state — after `generate()` and any
sequence of `updateGrowth(dt)` calls with `dt ≥ 0` — every branch and
leaf growth fraction lies in `[0,1]`, and one more `updateGrowth` call
with nonnegative delta never decreases any of them. -/
theorem claim_C2 (s : Tree) (hs : Reachable s) :
    (∀ i, i < s.branches.length →
      0 ≤ (nthB s.branches i).growth_progress ∧
      (nthB s.branches i).growth_progress ≤ 1) ∧
    (∀ l ∈ s.leaves, 0 ≤ l.growth_progress ∧ l.growth_progress ≤ 1) ∧
    (∀ (ops : MathOps) (dt : ℚ), 0 ≤ dt →
      (∀ i, (nthB s.branches i).growth_progress ≤
        (nthB (Tree.updateGrowth ops dt s).branches i).growth_progress) ∧
      (∀ j, j < s.leaves.length →
        (s.leaves.getD j default).growth_progress ≤
        ((Tree.updateGrowth ops dt s).leaves.getD j default).growth_progress)) := by
  obtain ⟨hT, hB, hL⟩ := reachable_inv hs
  refine ⟨fun i hi => ⟨(hB i hi).1, (hB i hi).2.1⟩,
    fun l hl => ⟨(hL l hl).1, (hL l hl).2.1⟩, fun ops dt hdt => ?_⟩
  exact updateGrowth_mono ops dt s ⟨hT, hB, hL⟩ hdt

def sW2 : Tree := Tree.generate idOps env0 Tree.init

theorem claim_C2_witness :
    Reachable sW2 ∧
    (∀ i, i < sW2.branches.length →
      0 ≤ (nthB sW2.branches i).growth_progress ∧
      (nthB sW2.branches i).growth_progress ≤ 1) :=
  have h : Reachable sW2 :=
    Reachable.generated idOps env0 Tree.init envOk_env0 (by with_unfolding_all decide)
  ⟨h, (claim_C2 sW2 h).1⟩

/-- Claim C3: in the spec's scenario tree (total growth time 10, a root
with one generation-1 child, all fractions 0, clock 0): after
`updateGrowth(1.5)` the root's fraction is `0.375` and the child's `0`;
after a further `updateGrowth(1.0)` the root's fraction is `0.625` and
the child's `(2.5 - 2.4)/4 = 0.025`, the child's actual start time being
`max(1.5, 0.6*4 + 0) = 2.4`. -/
theorem claim_C3 (ops : MathOps) :
    (nthB (Tree.updateGrowth ops (3/2) sC3).branches 0).growth_progress = 3/8 ∧
    (nthB (Tree.updateGrowth ops (3/2) sC3).branches 1).growth_progress = 0 ∧
    (nthB (Tree.updateGrowth ops 1
      (Tree.updateGrowth ops (3/2) sC3)).branches 0).growth_progress = 5/8 ∧
    (nthB (Tree.updateGrowth ops 1
      (Tree.updateGrowth ops (3/2) sC3)).branches 1).growth_progress = 1/40 := by
  simp only [updateGrowth_branches, updateGrowth_cfg, updateGrowth_time]
  with_unfolding_all decide

/-- Claim C4 (amended): the quad `updateLeafMesh`/`addLeafQuad` emits for
a leaf of size `s` at growth fraction `g` has rendered size
`0.05 + (s*g - 0.05)*g`, not `s*g`: there is a minimum size floor, and as
`g` approaches `0` from above the size approaches `0.05`, not `0`. -/
theorem claim_C4 (s g : ℚ) (hg0 : 0 < g) (hg1 : g ≤ 1) (hs0 : 0 ≤ s) :
    addLeafQuadSize (s * g) g = 1/20 + (s * g - 1/20) * g ∧
    |addLeafQuadSize (s * g) g - 1/20| ≤ (s + 1/20) * g := by
  have he : addLeafQuadSize (s * g) g = 1/20 + (s * g - 1/20) * g := by
    simp only [addLeafQuadSize]
    norm_num
  refine ⟨he, ?_⟩
  rw [he]
  rw [show (1:ℚ)/20 + (s * g - 1/20) * g - 1/20 = (s * g - 1/20) * g from by ring]
  rw [abs_le]
  constructor
  · have h2 : -(s + 1/20) ≤ s * g - 1/20 := by
      nlinarith [mul_nonneg hs0 hg0.le]
    calc -((s + 1/20) * g) = (-(s + 1/20)) * g := by ring
      _ ≤ (s * g - 1/20) * g := mul_le_mul_of_nonneg_right h2 hg0.le
  · have h1 : s * g - 1/20 ≤ s + 1/20 := by
      nlinarith [mul_le_of_le_one_right hs0 hg1]
    exact mul_le_mul_of_nonneg_right h1 hg0.le

theorem claim_C4_witness :
    (0 < (1/100 : ℚ)) ∧
    |addLeafQuadSize ((2/5) * (1/100)) (1/100) - 1/20| ≤ ((2/5) + 1/20) * (1/100) :=
  ⟨by norm_num,
    (claim_C4 (2/5) (1/100) (by norm_num) (by norm_num) (by norm_num)).2⟩

theorem leafVertsC4_quad :
    buildLeafVerts idOps bsC4 [leafC4] =
      addLeafQuad idOps ⟨0, 1, 0⟩ ⟨0, 0, 1⟩ (1/250) (1/100) := by
  have hcond : 0 < leafC4.growth_progress ∧ 0 ≤ leafC4.parent_branch_index ∧
      leafC4.parent_branch_index < (bsC4.length : Int) := by
    with_unfolding_all decide
  have hpos : calculateAbsoluteBranchEnd bsC4 leafC4.parent_branch_index +
      (leafC4.position - (nthB bsC4 leafC4.parent_branch_index.toNat).endP) =
      (⟨0, 1, 0⟩ : Vec3) := by with_unfolding_all decide
  have hnorm : leafC4.normal = (⟨0, 0, 1⟩ : Vec3) := by with_unfolding_all decide
  have hdyn : leafC4.size * leafC4.growth_progress = 1/250 := by
    with_unfolding_all decide
  have hg : leafC4.growth_progress = 1/100 := by with_unfolding_all decide
  simp only [buildLeafVerts, buildLeafVertsAux]
  rw [if_pos hcond]
  show addLeafQuad idOps
      (calculateAbsoluteBranchEnd bsC4 leafC4.parent_branch_index +
        (leafC4.position - (nthB bsC4 leafC4.parent_branch_index.toNat).endP))
      leafC4.normal (leafC4.size * leafC4.growth_progress) leafC4.growth_progress
      ++ [] = _
  rw [List.append_nil, hpos, hnorm, hdyn, hg]

theorem Vec3.sub_def (a b : Vec3) :
    a - b = ⟨a.x - b.x, a.y - b.y, a.z - b.z⟩ := rfl

theorem Vec3.add_def (a b : Vec3) :
    a + b = ⟨a.x + b.x, a.y + b.y, a.z + b.z⟩ := rfl

theorem leafVertsC4_x0 :
    (addLeafQuad idOps ⟨0, 1, 0⟩ ⟨0, 0, 1⟩ (1/250) (1/100)).getD 0 0 =
      2477/100000 := by
  norm_num [addLeafQuad, addLeafQuadSize, leafVertex, idOps, Vec3.cross, Vec3.smul,
    Vec3.neg, Vec3.sub_def, Vec3.add_def, List.getD_cons_zero, List.getD_cons_succ,
    List.cons_append, List.nil_append]

theorem leafVertsC4_x9 :
    (addLeafQuad idOps ⟨0, 1, 0⟩ ⟨0, 0, 1⟩ (1/250) (1/100)).getD 9 0 =
      -(2477/100000) := by
  norm_num [addLeafQuad, addLeafQuadSize, leafVertex, idOps, Vec3.cross, Vec3.smul,
    Vec3.neg, Vec3.sub_def, Vec3.add_def, List.getD_cons_zero, List.getD_cons_succ,
    List.cons_append, List.nil_append]

/-- Claim C4 counterexample: for the concrete leaf `leafC4`
(`size = 0.4`, growth fraction `g = 0.01`) the emitted quad's width —
the difference of the x coordinates of its first two vertices — is
`0.04954 = 0.05 + (0.4*0.01 - 0.05)*0.01`, which is not
`leaf.size * g = 0.004`: the claimed "no minimum size floor" is false. -/
theorem claim_C4_counterexample :
    (buildLeafVerts idOps bsC4 [leafC4]).getD 0 0 -
      (buildLeafVerts idOps bsC4 [leafC4]).getD 9 0 = 2477/50000 ∧
    (2477/50000 : ℚ) ≠ leafC4.size * leafC4.growth_progress := by
  constructor
  · rw [leafVertsC4_quad, leafVertsC4_x0, leafVertsC4_x9]
    norm_num
  · with_unfolding_all decide

/-- Claim C5: after every mesh rebuild (each `updateGrowth` call ends
with one), the branch vertex count — buffer length divided by 9 — is a
multiple of 24 (here exactly `24 * 2 = 48`, the 8 segments emitting two
triangles of 3 vertices each per ring side) times the number of branches
with positive growth fraction, and the leaf vertex count is 12 (front 6
plus back 6) times the number of leaves with positive growth fraction
and a valid parent index. -/
theorem claim_C5 (ops : MathOps) (dt : ℚ) (s : Tree) :
    Tree.getBranchVertexCount (Tree.updateGrowth ops dt s) =
      24 * 2 * numVisibleBranches (Tree.updateGrowth ops dt s).branches ∧
    Tree.getLeafVertexCount (Tree.updateGrowth ops dt s) =
      12 * numVisibleLeaves (Tree.updateGrowth ops dt s).branches
        (Tree.updateGrowth ops dt s).leaves := by
  constructor
  · show (Tree.updateGrowth ops dt s).branch_vertices.length / 9 = _
    rw [updateGrowth_bv, buildBranchVerts_length, updateGrowth_branches]
    omega
  · show (Tree.updateGrowth ops dt s).leaf_vertices.length / 9 = _
    rw [updateGrowth_lv, buildLeafVerts_length, updateGrowth_branches,
      updateGrowth_leaves]
    omega

/-- Claim C6: on a parent-monotone tree state, `updateGrowth(0)` is
idempotent: a second (and any further) call changes no branch or leaf
growth fraction and leaves both vertex buffers — indeed the whole
state — identical. -/
theorem claim_C6 (ops : MathOps) (s : Tree) (hm : ParentMonotone s.branches) :
    Tree.updateGrowth ops 0 (Tree.updateGrowth ops 0 s) = Tree.updateGrowth ops 0 s ∧
    (∀ j, (nthB (Tree.updateGrowth ops 0 (Tree.updateGrowth ops 0 s)).branches
        j).growth_progress =
      (nthB (Tree.updateGrowth ops 0 s).branches j).growth_progress) ∧
    (∀ j, ((Tree.updateGrowth ops 0 (Tree.updateGrowth ops 0 s)).leaves.getD j
        default).growth_progress =
      ((Tree.updateGrowth ops 0 s).leaves.getD j default).growth_progress) ∧
    (Tree.updateGrowth ops 0 (Tree.updateGrowth ops 0 s)).branch_vertices =
      (Tree.updateGrowth ops 0 s).branch_vertices ∧
    (Tree.updateGrowth ops 0 (Tree.updateGrowth ops 0 s)).leaf_vertices =
      (Tree.updateGrowth ops 0 s).leaf_vertices := by
  have h := updateGrowth_zero_idem ops s hm
  exact ⟨h, fun j => by rw [h], fun j => by rw [h], by rw [h], by rw [h]⟩

theorem claim_C6_witness :
    ParentMonotone sC3.branches ∧
    Tree.updateGrowth idOps 0 (Tree.updateGrowth idOps 0 sC3) =
      Tree.updateGrowth idOps 0 sC3 :=
  ⟨by with_unfolding_all decide,
    (claim_C6 idOps sC3 (by with_unfolding_all decide)).1⟩

/-- Claim C7: on every reachable state, a branch of generation `g > 0`
has positive growth fraction only once the elapsed time exceeds
`g * (0.15 * totalGrowthTime)`; and the update body never changes (in
particular never assigns a positive value to) a non-root branch unless
its parent is valid and the parent's current growth fraction exceeds
`0.6`. -/
theorem claim_C7 :
    (∀ s, Reachable s → ∀ i, i < s.branches.length →
      0 < (nthB s.branches i).generation →
      0 < (nthB s.branches i).growth_progress →
      ((nthB s.branches i).generation : ℚ) * (s.cfg.max_growth_time * (15/100)) <
        s.current_growth_time) ∧
    (∀ (T t : ℚ) (acc : List TreeBranch) (b : TreeBranch),
      0 < b.generation → updBranch T t acc b ≠ b →
      0 ≤ b.parent_index ∧ b.parent_index < (acc.length : Int) ∧
      6/10 < (nthB acc b.parent_index.toNat).growth_progress) := by
  constructor
  · intro s hs i hi hgen hpos
    obtain ⟨hT, hB, _⟩ := reachable_inv hs
    obtain ⟨h0, h1, hJ⟩ := hB i hi
    rcases hJ with hJ | hJ
    · rw [hJ] at hpos
      exact absurd hpos (lt_irrefl 0)
    · have hsched := actualStart_ge_sched s.cfg.max_growth_time s.branches
        (nthB s.branches i)
      have hdur : 0 < durC s.cfg.max_growth_time := mul_pos hT (by norm_num)
      have hpd : 0 < (nthB s.branches i).growth_progress *
          durC s.cfg.max_growth_time := mul_pos hpos hdur
      unfold schedStart gdC at hsched
      linarith
  · intro T t acc b hgen hne
    unfold updBranch at hne
    by_cases h1 : (b.generation : ℚ) * (T * (15/100)) < t
    case neg => rw [if_neg h1] at hne; exact absurd rfl hne
    rw [if_pos h1, if_neg (show ¬ b.generation = 0 by omega)] at hne
    by_cases h3 : 0 ≤ b.parent_index ∧ b.parent_index < (acc.length : Int)
    case neg => rw [if_neg h3] at hne; exact absurd rfl hne
    rw [if_pos h3] at hne
    by_cases h4 : 6/10 < (nthB acc b.parent_index.toNat).growth_progress
    · exact ⟨h3.1, h3.2, h4⟩
    · rw [if_neg h4] at hne
      exact absurd rfl hne

theorem claim_C7_witness :
    Reachable sW7 ∧ 1 < sW7.branches.length ∧
    0 < (nthB sW7.branches 1).generation ∧
    0 < (nthB sW7.branches 1).growth_progress ∧
    ((nthB sW7.branches 1).generation : ℚ) * (sW7.cfg.max_growth_time * (15/100)) <
      sW7.current_growth_time := by
  have hr : Reachable sW7 :=
    Reachable.stepped idOps 1 _ (Reachable.stepped idOps (3/2) _
      (Reachable.generated idOps env0 _ envOk_env0 (by with_unfolding_all decide))
      (by norm_num)) (by norm_num)
  exact ⟨hr, by with_unfolding_all decide, by with_unfolding_all decide,
    by with_unfolding_all decide,
    claim_C7.1 sW7 hr 1 (by with_unfolding_all decide)
      (by with_unfolding_all decide) (by with_unfolding_all decide)⟩

/-- Claim C8: on every reachable state, a leaf has positive growth
fraction only if its parent branch is valid, the parent's current
fraction exceeds `0.4`, and the elapsed time exceeds
`parent.generation * generationDelay + leafStartOffset + spawnDelay`;
the update body leaves a leaf unchanged unless all that holds, and when
it does update, the new fraction is
`clamp((elapsed - start)/leafGrowthDuration, 0, 1)`. -/
theorem claim_C8 :
    (∀ s, Reachable s → ∀ l ∈ s.leaves, 0 < l.growth_progress →
      0 ≤ l.parent_branch_index ∧ l.parent_branch_index < (s.branches.length : Int) ∧
      2/5 < (nthB s.branches l.parent_branch_index.toNat).growth_progress ∧
      leafStartT s.cfg.max_growth_time s.branches l < s.current_growth_time) ∧
    (∀ (T t : ℚ) (bs : List TreeBranch) (l : TreeLeaf),
      (updLeaf T t bs l ≠ l →
        0 ≤ l.parent_branch_index ∧ l.parent_branch_index < (bs.length : Int) ∧
        2/5 < (nthB bs l.parent_branch_index.toNat).growth_progress ∧
        leafStartT T bs l < t) ∧
      (0 < T →
        0 ≤ l.parent_branch_index → l.parent_branch_index < (bs.length : Int) →
        2/5 < (nthB bs l.parent_branch_index.toNat).growth_progress →
        leafStartT T bs l < t →
        (updLeaf T t bs l).growth_progress =
          max 0 (min 1 ((t - leafStartT T bs l) / (T * (1/10)))))) := by
  constructor
  · intro s hs l hl hpos
    obtain ⟨hT, _, hL⟩ := reachable_inv hs
    obtain ⟨h0, h1, hJ⟩ := hL l hl
    rcases hJ with hJ | ⟨v1, v2, v3, v4⟩
    · rw [hJ] at hpos
      exact absurd hpos (lt_irrefl 0)
    · have hld : 0 < ldurC s.cfg.max_growth_time := mul_pos hT (by norm_num)
      have hpd : 0 < l.growth_progress * ldurC s.cfg.max_growth_time :=
        mul_pos hpos hld
      exact ⟨v1, v2, v3, by linarith⟩
  · intro T t bs l
    constructor
    · intro hne
      unfold updLeaf at hne
      by_cases h1 : 0 ≤ l.parent_branch_index ∧
          l.parent_branch_index < (bs.length : Int)
      case neg => rw [if_neg h1] at hne; exact absurd rfl hne
      rw [if_pos h1] at hne
      by_cases h2 : 2/5 < (nthB bs l.parent_branch_index.toNat).growth_progress
      case neg => rw [if_neg h2] at hne; exact absurd rfl hne
      rw [if_pos h2] at hne
      by_cases h3 : ((nthB bs l.parent_branch_index.toNat).generation : ℚ) *
          (T * (15/100)) + T * (1/10) + l.spawn_delay < t
      case neg => rw [if_neg h3] at hne; exact absurd rfl hne
      exact ⟨h1.1, h1.2, h2, h3⟩
    · intro hT hv1 hv2 hgate hst
      have hld : 0 < T * (1/10) := mul_pos hT (by norm_num)
      have hst' : ((nthB bs l.parent_branch_index.toNat).generation : ℚ) *
          (T * (15/100)) + T * (1/10) + l.spawn_delay < t := hst
      have hq : 0 < (t - leafStartT T bs l) / (T * (1/10)) :=
        div_pos (by unfold leafStartT at hst ⊢; linarith) hld
      unfold updLeaf
      rw [if_pos (And.intro hv1 hv2), if_pos hgate, if_pos hst']
      show min 1 ((t - (((nthB bs l.parent_branch_index.toNat).generation : ℚ) *
          (T * (15/100)) + T * (1/10) + l.spawn_delay)) / (T * (1/10))) =
        max 0 (min 1 ((t - leafStartT T bs l) / (T * (1/10))))
      rw [max_eq_right (le_min (by norm_num) (le_of_lt hq))]
      rfl

theorem claim_C8_witness :
    Reachable sW8 ∧ (sW8.leaves.getD 0 default) ∈ sW8.leaves ∧
    0 < (sW8.leaves.getD 0 default).growth_progress ∧
    2/5 < (nthB sW8.branches
      (sW8.leaves.getD 0 default).parent_branch_index.toNat).growth_progress := by
  have hr : Reachable sW8 :=
    Reachable.stepped idOps 6 _
      (Reachable.generated idOps env0 _ envOk_env0 (by with_unfolding_all decide))
      (by norm_num)
  exact ⟨hr, by with_unfolding_all decide, by with_unfolding_all decide,
    (claim_C8.1 sW8 hr (sW8.leaves.getD 0 default)
      (by with_unfolding_all decide) (by with_unfolding_all decide)).2.2.1⟩

/-- Claim C9: `generate()` fully discards the prior branch, leaf and
vertex collections (its result does not depend on them), resets the
clock to 0, and builds a structure whose root has generation 0 and
parent index `-1`, in which every non-root branch has exactly one
parent of one generation less created earlier, every branch below the
maximum generation has 2 to 4 children, all fractions are 0, and every
leaf points at an existing branch of generation at least 2. -/
theorem claim_C9 (ops : MathOps) (env : Env) (hEnv : EnvOk env) (s0 : Tree) :
    Tree.generate ops env s0 =
      Tree.generate ops env
        { s0 with branches := [], leaves := [], branch_vertices := []
                  leaf_vertices := [], current_growth_time := 0, ctr := 0 } ∧
    (Tree.generate ops env s0).current_growth_time = 0 ∧
    (Tree.generate ops env s0).branch_vertices = [] ∧
    (Tree.generate ops env s0).leaf_vertices = [] ∧
    0 < (Tree.generate ops env s0).branches.length ∧
    (nthB (Tree.generate ops env s0).branches 0).parent_index = -1 ∧
    (nthB (Tree.generate ops env s0).branches 0).generation = 0 ∧
    (∀ j, 0 < j → j < (Tree.generate ops env s0).branches.length →
      0 ≤ (nthB (Tree.generate ops env s0).branches j).parent_index ∧
      (nthB (Tree.generate ops env s0).branches j).parent_index < (j : Int) ∧
      (nthB (Tree.generate ops env s0).branches j).generation =
        (nthB (Tree.generate ops env s0).branches
          (nthB (Tree.generate ops env s0).branches j).parent_index.toNat).generation
          + 1) ∧
    (∀ j, j < (Tree.generate ops env s0).branches.length →
      (nthB (Tree.generate ops env s0).branches j).generation <
          s0.cfg.max_generations →
      2 ≤ (nthB (Tree.generate ops env s0).branches j).children.length ∧
      (nthB (Tree.generate ops env s0).branches j).children.length ≤ 4) ∧
    (∀ l ∈ (Tree.generate ops env s0).leaves,
      0 ≤ l.parent_branch_index ∧
      l.parent_branch_index < ((Tree.generate ops env s0).branches.length : Int) ∧
      2 ≤ (nthB (Tree.generate ops env s0).branches
        l.parent_branch_index.toNat).generation ∧
      l.growth_progress = 0) ∧
    (∀ j, j < (Tree.generate ops env s0).branches.length →
      (nthB (Tree.generate ops env s0).branches j).growth_progress = 0) := by
  obtain ⟨hlen, hrp, hrg, hz, hreg, hlv⟩ := generate_shape ops env s0 hEnv
  refine ⟨rfl, rfl, rfl, rfl, hlen, hrp, hrg, hreg, ?_, ?_, fun j hj => (hz j hj).1⟩
  · intro j hj hlt
    have hc := (hz j hj).2
    unfold closedB at hc
    rw [if_pos hlt] at hc
    exact hc
  · intro l hl
    obtain ⟨a1, a2, a3, a4⟩ := hlv l hl
    exact ⟨a1, a2, a3, a4⟩

theorem claim_C9_witness :
    EnvOk env0 ∧ (Tree.generate idOps env0 Tree.init).current_growth_time = 0 :=
  ⟨envOk_env0, (claim_C9 idOps env0 envOk_env0 Tree.init).2.1⟩

/-- Claim C10 (implicit): every generated tree is parent-monotone (each
branch's parent index is strictly below its own); hence when the single
forward pass of `updateGrowth` reaches position `i`, its parent's entry
already holds the final value updated in the same call; and the
parent-chain recursion of the position resolver strictly decreases the
index, so it terminates — equivalently, its fuel embedding is stable
once the fuel exceeds the default budget. -/
theorem claim_C10 (ops : MathOps) (env : Env) (hEnv : EnvOk env) (s0 : Tree)
    (T t : ℚ) (bs : List TreeBranch) (hm : ParentMonotone bs) :
    ParentMonotone (Tree.generate ops env s0).branches ∧
    (∀ i, i < bs.length → 0 ≤ (nthB bs i).parent_index →
      nthB (passPrefix T t bs i) (nthB bs i).parent_index.toNat =
        nthB (branchPass T t bs) (nthB bs i).parent_index.toNat) ∧
    (∀ i : Int, i < (bs.length : Int) → ∀ n m : Nat,
      2 * bs.length + 2 ≤ n → 2 * bs.length + 2 ≤ m →
      absStartF bs n i = absStartF bs m i ∧ absEndF bs n i = absEndF bs m i) := by
  refine ⟨generate_parentMonotone ops env s0 hEnv, ?_, ?_⟩
  · intro i hi hp0
    have hpi : (nthB bs i).parent_index < (i : Int) := hm i hi
    unfold nthB
    exact (branchPass_getD_lt T t bs i (nthB bs i).parent_index.toNat
      (by omega) (by omega)).symm
  · intro i hilen n m hn hm2
    exact absF_stable bs hm i.toNat i rfl n m (by omega) (by omega)

theorem claim_C10_witness :
    EnvOk env0 ∧ ParentMonotone bW ∧
    ParentMonotone (Tree.generate idOps env0 Tree.init).branches :=
  ⟨envOk_env0, by with_unfolding_all decide,
    (claim_C10 idOps env0 envOk_env0 Tree.init 10 1 bW
      (by with_unfolding_all decide)).1⟩

end TreeSimple
